import Mathlib

/-!
# The service-module registry of `skynet-src/skynet_module.c`

A shallow embedding of the registry and of the properties stated about it.
Conventions of the embedding:

* a C string is the list of its bytes before the terminating NUL; `strlen` is
  `List.length`, and a pointer into a string is the remaining suffix;
* a `void *` (library handle, entry point) is a natural number, `NULL` is `0`;
* a pointer to a slot `&M->m[i]` is the index `i`; a `NULL` result is `none`;
* the platform loader (`dlopen`, `dlsym`) is given to every call, and every
  function returns the list of the loader calls it made, in order;
* `exit(1)` and an access outside an array are outcomes of their own; an array
  `char tmp[sz]` with `sz = 0` is an empty array, as GNU C has it;
* the text written to `stderr` is not part of the model, and the sizes kept in
  `int` are natural numbers (no string here is 2^31 bytes long).
-/

namespace Skynet

/-! ## The program -/

/-- The value of `MAX_MODULE_TYPE`. -/
def MAX_MODULE_TYPE : Nat := 32

/-- The record `struct skynet_module`: name, library handle, four entry points. -/
structure skynet_module where
  name : List Char
  module : Nat
  create : Nat
  init : Nat
  release : Nat
  signal : Nat
deriving DecidableEq, Repr

/-- The registry `struct modules` (the spin lock has no sequential content).
The array `m` is a total function of the index; slots at `count` and above hold
whatever was left there. -/
structure modules where
  count : Nat
  path : List Char
  m : Nat → skynet_module

/-- The platform loader: `dlopen(path, flags)` and `dlsym(handle, symbol)`. -/
structure Loader where
  dlopen : List Char → Nat
  dlsym : Nat → List Char → Nat

/-- One call into the platform loader. -/
inductive Event where
  | dlopen (path : List Char)
  | dlsym (handle : Nat) (symbol : List Char)
deriving DecidableEq, Repr

/-- How a function ends: it returns, the process exits with status 1, an array
is accessed out of range, or the iteration budget of the model is used up. -/
inductive Outcome (α : Type) where
  | ret (a : α)
  | exit
  | fault
  | nofuel
deriving DecidableEq, Repr

/-- The assignment `tmp[i] = c`; `none` when `i` is outside `tmp`. -/
def store (tmp : List Char) (i : Nat) (c : Char) : Option (List Char) :=
  if i < tmp.length then some (tmp.set i c) else none

/-- The call `memset(tmp,0,sz)` on `char tmp[sz]`. -/
def memset0 (sz : Nat) : List Char := List.replicate sz '\x00'

/-- The call `memcpy(tmp+off, src, strlen(src))`. -/
def memcpy (tmp : List Char) (off : Nat) : List Char → Option (List Char)
  | [] => some tmp
  | c :: cs => (store tmp off c).bind fun t => memcpy t (off + 1) cs

/-- The call `strncpy(tmp+off, src, n)`: the bytes of `src`, then NUL bytes once
`src` has ended, `n` bytes in all. -/
def strncpy (tmp : List Char) (off : Nat) (src : List Char) : Nat → Option (List Char)
  | 0 => some tmp
  | n + 1 =>
    match src with
    | [] => (store tmp off '\x00').bind fun t => strncpy t (off + 1) [] n
    | c :: cs => (store tmp off c).bind fun t => strncpy t (off + 1) cs n

/-- The string the loader reads at `tmp`: the bytes before the first NUL;
`none` when `tmp` holds no NUL. -/
def readStr (tmp : List Char) : Option (List Char) :=
  if '\x00' ∈ tmp then some (tmp.takeWhile (· ≠ '\x00')) else none

/-- The loop `for (i=0;path[i]!='?' && i < len ;i++) tmp[i] = path[i];`, from
index `i` with `path` the string at `path+i`; it gives the final `i` and `tmp`.
At the end of the string `path[i]` is the terminator, which is not `'?'`. -/
def copy_loop (len : Nat) : List Char → Nat → List Char → Option (Nat × List Char)
  | [], i, tmp => if i < len then none else some (i, tmp)
  | c :: rest, i, tmp =>
    if c ≠ '?' ∧ i < len then
      (store tmp i c).bind fun t => copy_loop len rest (i + 1) t
    else some (i, tmp)

/-- The byte `path[i]`, the terminator at the end of the string. -/
def charAt (path : List Char) (i : Nat) : Char := path.getD i '\x00'

/-- The result of `strchr(path, ';')` with `NULL` replaced by the end of the
string: the suffix of `path` at its first `';'`. -/
def strchr_or_end (path : List Char) : List Char := path.dropWhile (· ≠ ';')

/-- The body of the loop of `_try_open` between `int len = l - path;` and the
call of `dlopen`: the path built in `tmp`, for the segment of `len` bytes at
`path`. `exit` is the branch `fprintf(stderr,"Invalid C service path\n"); exit(1);`.
A negative `len - i - 1` would be a huge `size_t` count for `strncpy`, hence a
fault. -/
def build (sz : Nat) (name path : List Char) (len : Nat) : Outcome (List Char) :=
  match copy_loop len path 0 (memset0 sz) with
  | none => .fault
  | some (i, tmp) =>
    match memcpy tmp i name with
    | none => .fault
    | some tmp =>
      if charAt path i = '?' then
        if len < i + 1 then .fault
        else
          match strncpy tmp (i + name.length) (path.drop (i + 1)) (len - i - 1) with
          | none => .fault
          | some tmp =>
            match readStr tmp with
            | none => .fault
            | some s => .ret s
      else .exit

/-- The `do ... while(dl == NULL)` loop of `_try_open`, `fuel` iterations at most;
`tr` is the list of loader calls made so far. -/
def try_open_loop (ld : Loader) (sz : Nat) (name : List Char) :
    Nat → List Char → List Event → List Event × Outcome Nat
  | 0, _, tr => (tr, .nofuel)
  | fuel + 1, path, tr =>
    match path.dropWhile (· = ';') with
    | [] => (tr, .ret 0)
    | c :: cs =>
      let l := strchr_or_end (c :: cs)
      let len := (c :: cs).length - l.length
      match build sz name (c :: cs) len with
      | .ret s =>
        let dl := ld.dlopen s
        if dl = 0 then try_open_loop ld sz name fuel l (tr ++ [Event.dlopen s])
        else (tr ++ [Event.dlopen s], .ret dl)
      | .exit => (tr, .exit)
      | .fault => (tr, .fault)
      | .nofuel => (tr, .nofuel)

/-- The function `_try_open`, with `path` the field `m->path`: the loader calls
it made and the handle it returns (`0` for `NULL`). -/
def _try_open (ld : Loader) (path name : List Char) : List Event × Outcome Nat :=
  try_open_loop ld (path.length + name.length) name (path.length + 1) path []

/-- The function `_query`: the first index below `count` whose record has the
name `name` (`strcmp(...)==0`), `none` for `NULL`. -/
def _query (M : modules) (name : List Char) : Option Nat :=
  (List.range M.count).find? fun i => (M.m i).name = name

/-- The call `strrchr(s, c)`: the suffix of `s` at the last `c`, `none` for `NULL`. -/
def strrchr (c : Char) : List Char → Option (List Char)
  | [] => none
  | x :: xs =>
    match strrchr c xs with
    | some r => some r
    | none => if x = c then some (x :: xs) else none

/-- The string `ptr` that `get_api` passes to `dlsym`: `tmp` is the name
followed by `api_name`, and `ptr` is `tmp` or the byte after its last `'.'`. -/
def api_symbol (name api_name : List Char) : List Char :=
  let tmp := name ++ api_name
  match strrchr '.' tmp with
  | none => tmp
  | some ptr => ptr.drop 1

/-- The function `get_api`: the loader call made and what `dlsym` returned. -/
def get_api (ld : Loader) (mod : skynet_module) (api_name : List Char) : Event × Nat :=
  let ptr := api_symbol mod.name api_name
  (Event.dlsym mod.module ptr, ld.dlsym mod.module ptr)

/-- The function `open_sym`: the loader calls made, the record with its four
entry points assigned, and the returned `int` (`mod->init == NULL`). -/
def open_sym (ld : Loader) (mod : skynet_module) : List Event × skynet_module × Nat :=
  let r1 := get_api ld mod "_create".toList
  let mod1 := { mod with create := r1.2 }
  let r2 := get_api ld mod1 "_init".toList
  let mod2 := { mod1 with init := r2.2 }
  let r3 := get_api ld mod2 "_release".toList
  let mod3 := { mod2 with release := r3.2 }
  let r4 := get_api ld mod3 "_signal".toList
  let mod4 := { mod3 with signal := r4.2 }
  ([r1.1, r2.1, r3.1, r4.1], mod4, if mod4.init = 0 then 1 else 0)

/-- The registry with slot `i` replaced by `r`. -/
def setSlot (M : modules) (i : Nat) (r : skynet_module) : modules :=
  { M with m := Function.update M.m i r }

/-- The function `skynet_module_query` on the registry `M`: the loader calls
made, and on return the result (`some i` for `&M->m[i]`, `none` for `NULL`)
with the registry as the call leaves it. -/
def skynet_module_query (ld : Loader) (M : modules) (name : List Char) :
    List Event × Outcome (Option Nat × modules) :=
  match _query M name with
  | some i => ([], .ret (some i, M))
  | none =>
    match _query M name with
    | some i => ([], .ret (some i, M))
    | none =>
      if M.count < MAX_MODULE_TYPE then
        let index := M.count
        match _try_open ld M.path name with
        | (tr, .ret dl) =>
          if dl ≠ 0 then
            let M1 := setSlot M index { M.m index with name := name }
            let M2 := setSlot M1 index { M1.m index with module := dl }
            let r := open_sym ld (M2.m index)
            let M3 := setSlot M2 index r.2.1
            if r.2.2 = 0 then
              let M4 := setSlot M3 index { M3.m index with name := name }
              let M5 := { M4 with count := M4.count + 1 }
              (tr ++ r.1, .ret (some index, M5))
            else (tr ++ r.1, .ret (none, M3))
          else (tr, .ret (none, M))
        | (tr, .exit) => (tr, .exit)
        | (tr, .fault) => (tr, .fault)
        | (tr, .nofuel) => (tr, .nofuel)
      else ([], .ret (none, M))

/-- The function `skynet_module_init`: `blk` is the block `skynet_malloc`
returned, whose contents are arbitrary; the result is the new value of `M`. -/
def skynet_module_init (blk : modules) (path : List Char) : modules :=
  { blk with count := 0, path := path }

/-- Calls of `skynet_module_query` in sequence with one loader: the results in
order and the final registry; `none` when some call does not return. -/
def query_all (ld : Loader) : modules → List (List Char) → Option (List (Option Nat) × modules)
  | M, [] => some ([], M)
  | M, n :: ns =>
    match skynet_module_query ld M n with
    | (_, .ret (r, M')) => (query_all ld M' ns).map fun p => (r :: p.1, p.2)
    | _ => none

/-- The registry states that follow a state: those reached from it by calls of
`skynet_module_query` that return, each with any name and any loader. -/
inductive Later : modules → modules → Prop where
  | refl (M : modules) : Later M M
  | step {M M1 M2 : modules} (ld : Loader) (name : List Char) (tr : List Event)
      (r : Option Nat) (h1 : Later M M1)
      (h2 : skynet_module_query ld M1 name = (tr, .ret (r, M2))) : Later M M2

/-- The registry states the program reaches: `skynet_module_init`, then calls
of `skynet_module_query`. -/
def Reachable (M : modules) : Prop :=
  ∃ (blk : modules) (path : List Char), Later (skynet_module_init blk path) M

/-- The code of the loaded modules, by entry-point address: what `create()`
returns, and the status `init(inst, ctx, parm)` returns; `parm` is `none` for a
`NULL` string. -/
structure Code where
  create : Nat → Nat
  init : Nat → Nat → Nat → Option (List Char) → Int

/-- One call through an entry point of a module. -/
inductive Call where
  | create (f : Nat)
  | init (f inst ctx : Nat) (parm : Option (List Char))
  | release (f inst : Nat)
  | signal (f inst : Nat) (signal : Int)
deriving DecidableEq, Repr

/-- The value `(void *)(intptr_t)(~0)` where pointers have `w` bits: `~0` is the
`int` -1, which `intptr_t` keeps, and the pointer is its value modulo `2^w`. -/
def no_instance (w : Nat) : Nat := ((~~~ (0 : Int)) % (2 : Int) ^ w).toNat

/-- The function `skynet_module_instance_create` where pointers have `w` bits:
the entry-point calls made and the pointer returned. -/
def skynet_module_instance_create (w : Nat) (code : Code) (m : skynet_module) :
    List Call × Nat :=
  if m.create ≠ 0 then ([Call.create m.create], code.create m.create)
  else ([], no_instance w)

/-- The function `skynet_module_instance_init`; the source calls `m->init`
unchecked, and a call through a `NULL` function pointer is a fault. -/
def skynet_module_instance_init (code : Code) (m : skynet_module) (inst ctx : Nat)
    (parm : Option (List Char)) : List Call × Outcome Int :=
  if m.init = 0 then ([], .fault)
  else ([Call.init m.init inst ctx parm], .ret (code.init m.init inst ctx parm))

/-- The function `skynet_module_instance_release`: the entry-point calls made. -/
def skynet_module_instance_release (m : skynet_module) (inst : Nat) : List Call :=
  if m.release ≠ 0 then [Call.release m.release inst] else []

/-- The function `skynet_module_instance_signal`: the entry-point calls made. -/
def skynet_module_instance_signal (m : skynet_module) (inst : Nat) (signal : Int) :
    List Call :=
  if m.signal ≠ 0 then [Call.signal m.signal inst signal] else []

/-! ## The path template, as the specification words it -/

/-- The non-empty segments of a template: split on `';'`, drop the empty ones. -/
def segments (template : List Char) : List (List Char) :=
  (template.splitOn ';').filter (· ≠ [])

/-- The name substituted for the wildcard of a segment: the text before the
wildcard, the name, the text after the wildcard. -/
def expand (name seg : List Char) : List Char :=
  seg.takeWhile (· ≠ '?') ++ name ++ (seg.dropWhile (· ≠ '?')).drop 1

/-- The ordered candidate paths of a template for a name. -/
def resolve (template name : List Char) : List (List Char) :=
  (segments template).map (expand name)

/-- Every non-empty segment of the template contains a wildcard. -/
def wellFormed (template : List Char) : Prop :=
  ∀ seg ∈ segments template, '?' ∈ seg

instance (template : List Char) : Decidable (wellFormed template) := by
  unfold wellFormed; infer_instance

/-- The segments walked in order: a segment without wildcard ends the process,
a candidate that opens ends the walk with its handle. -/
def walk (ld : Loader) (name : List Char) :
    List (List Char) → List Event → List Event × Outcome Nat
  | [], tr => (tr, .ret 0)
  | seg :: rest, tr =>
    if '?' ∈ seg then
      if ld.dlopen (expand name seg) = 0 then
        walk ld name rest (tr ++ [Event.dlopen (expand name seg)])
      else (tr ++ [Event.dlopen (expand name seg)], .ret (ld.dlopen (expand name seg)))
    else (tr, .exit)

/-- The loader calls of the candidates of a list of segments. -/
def opens (name : List Char) (segs : List (List Char)) : List Event :=
  segs.map fun s => Event.dlopen (expand name s)

/-- A name is loadable from a template with a loader: it is a C string, the
candidate of some segment opens after the candidates before it failed, and the
init symbol resolves in the library opened. -/
def loadable (ld : Loader) (path name : List Char) : Prop :=
  '\x00' ∉ name ∧ ∃ pre seg post, segments path = pre ++ seg :: post ∧
    (∀ s ∈ pre, '?' ∈ s ∧ ld.dlopen (expand name s) = 0) ∧
    '?' ∈ seg ∧ ld.dlopen (expand name seg) ≠ 0 ∧
    ld.dlsym (ld.dlopen (expand name seg)) (api_symbol name "_init".toList) ≠ 0

/-! ## The record and the lookups of a successful binding -/

/-- The record that a library handle and the four symbol lookups leave in a slot. -/
def bound (ld : Loader) (name : List Char) (dl : Nat) : skynet_module :=
  { name := name
    module := dl
    create := ld.dlsym dl (api_symbol name "_create".toList)
    init := ld.dlsym dl (api_symbol name "_init".toList)
    release := ld.dlsym dl (api_symbol name "_release".toList)
    signal := ld.dlsym dl (api_symbol name "_signal".toList) }

/-- The four symbol lookups of `open_sym`, in order. -/
def lookups (name : List Char) (dl : Nat) : List Event :=
  [Event.dlsym dl (api_symbol name "_create".toList),
   Event.dlsym dl (api_symbol name "_init".toList),
   Event.dlsym dl (api_symbol name "_release".toList),
   Event.dlsym dl (api_symbol name "_signal".toList)]

/-! ## Sample loaders, registries and names -/

/-- A loader that opens every path with handle 7 and resolves every symbol to 9. -/
def loaderAll : Loader := ⟨fun _ => 7, fun _ _ => 9⟩

/-- A loader that opens nothing and resolves nothing. -/
def loaderNone : Loader := ⟨fun _ => 0, fun _ _ => 0⟩

/-- A loader that opens every path with handle 7 and resolves no symbol. -/
def loaderNoInit : Loader := ⟨fun _ => 7, fun _ _ => 0⟩

/-- A registry with no record and a template of two segments. -/
def registryEmpty : modules :=
  { count := 0, path := "./svc/?.so;./lib/?.dll".toList, m := fun _ => ⟨[], 0, 0, 0, 0, 0⟩ }

/-- A registry whose one record is the module `echo`. -/
def registryEcho : modules :=
  { count := 1, path := "./svc/?.so".toList, m := fun _ => ⟨"echo".toList, 7, 9, 9, 9, 9⟩ }

/-- A registry with the 32 records `a`, `aa`, ... in its 32 slots. -/
def registryFull : modules :=
  { count := 32, path := "./svc/?.so".toList,
    m := fun i => ⟨List.replicate (i + 1) 'a', 7, 9, 9, 9, 9⟩ }

/-- Thirty-three distinct module names: `a`, `aa`, `aaa`, and so on. -/
def names33 : List (List Char) := (List.range 33).map fun k => List.replicate (k + 1) 'a'

/-- A module code whose `create` at address `f` returns `f + 100` and whose
`init` returns the sum of its address and its two pointer arguments. -/
def sampleCode : Code := ⟨fun f => f + 100, fun f inst ctx _ => (f + inst + ctx : Nat)⟩

/-- A record with all four entry points. -/
def recordFull : skynet_module := ⟨"lib.sub.echo".toList, 7, 11, 12, 13, 14⟩

/-- A record with the init entry point only. -/
def recordInitOnly : skynet_module := ⟨"echo".toList, 7, 0, 12, 0, 0⟩

/-! ## The scratch buffer -/

theorem store_mid (a b : List Char) (x c : Char) :
    store (a ++ x :: b) a.length c = some (a ++ c :: b) := by
  simp [store]

theorem memcpy_mid (src : List Char) : ∀ (a mid b : List Char), mid.length = src.length →
    memcpy (a ++ mid ++ b) a.length src = some (a ++ src ++ b) := by
  induction src with
  | nil =>
    intro a mid b h
    have : mid = [] := List.length_eq_zero.mp h
    simp [memcpy, this]
  | cons c cs ih =>
    intro a mid b h
    cases mid with
    | nil => simp at h
    | cons x xs =>
      have h1 : xs.length = cs.length := by simpa using h
      have e1 : a ++ x :: xs ++ b = a ++ x :: (xs ++ b) := by simp
      have e2 : a ++ c :: (xs ++ b) = (a ++ [c]) ++ xs ++ b := by simp
      have e3 : a.length + 1 = (a ++ [c]).length := by simp
      rw [memcpy, e1, store_mid, Option.some_bind, e2, e3, ih (a ++ [c]) xs b h1]
      simp

theorem strncpy_mid (n : Nat) : ∀ (a mid b src : List Char), mid.length = n → n ≤ src.length →
    strncpy (a ++ mid ++ b) a.length src n = some (a ++ src.take n ++ b) := by
  induction n with
  | zero =>
    intro a mid b src h _
    have : mid = [] := List.length_eq_zero.mp h
    simp [strncpy, this]
  | succ n ih =>
    intro a mid b src h hs
    cases mid with
    | nil => simp at h
    | cons x xs =>
      cases src with
      | nil => simp at hs
      | cons c cs =>
        have h1 : xs.length = n := by simpa using h
        have h2 : n ≤ cs.length := by simpa using hs
        have e1 : a ++ x :: xs ++ b = a ++ x :: (xs ++ b) := by simp
        have e2 : a ++ c :: (xs ++ b) = (a ++ [c]) ++ xs ++ b := by simp
        have e3 : a.length + 1 = (a ++ [c]).length := by simp
        rw [strncpy, e1, store_mid, Option.some_bind, e2, e3, ih (a ++ [c]) xs b cs h1 h2]
        simp

theorem copy_loop_mid (len : Nat) (pre : List Char) : ∀ (a mid b rest : List Char),
    '?' ∉ pre → mid.length = pre.length → a.length + pre.length ≤ len →
    (rest.head? = some '?' ∨ a.length + pre.length = len) →
    copy_loop len (pre ++ rest) a.length (a ++ mid ++ b)
      = some (a.length + pre.length, a ++ pre ++ b) := by
  induction pre with
  | nil =>
    intro a mid b rest _ hm hl hr
    have : mid = [] := List.length_eq_zero.mp hm
    subst this
    cases rest with
    | nil =>
      have : a.length = len := by simpa using hr
      simp [copy_loop, this]
    | cons r rs =>
      rcases hr with hr | hr
      · have : r = '?' := by simpa using hr
        simp [copy_loop, this]
      · have : a.length = len := by simpa using hr
        simp [copy_loop, this]
  | cons c cs ih =>
    intro a mid b rest hq hm hl hr
    cases mid with
    | nil => simp at hm
    | cons x xs =>
      have hc : c ≠ '?' := fun h => hq (by simp [h])
      have hcs : '?' ∉ cs := fun h => hq (by simp [h])
      have h1 : xs.length = cs.length := by simpa using hm
      have hlt : a.length < len := by simp at hl; omega
      have e1 : a ++ x :: xs ++ b = a ++ x :: (xs ++ b) := by simp
      have e2 : a ++ c :: (xs ++ b) = (a ++ [c]) ++ xs ++ b := by simp
      have e3 : a.length + 1 = (a ++ [c]).length := by simp
      have hl2 : (a ++ [c]).length + cs.length ≤ len := by simp at hl ⊢; omega
      have hr2 : rest.head? = some '?' ∨ (a ++ [c]).length + cs.length = len := by
        rcases hr with hr | hr
        · exact Or.inl hr
        · right; simp at hr ⊢; omega
      rw [List.cons_append, copy_loop, if_pos ⟨hc, hlt⟩, e1, store_mid, Option.some_bind, e2, e3,
        ih (a ++ [c]) xs b rest hcs h1 hl2 hr2]
      simp
      omega

theorem readStr_padded (s : List Char) (k : Nat) (hs : '\x00' ∉ s) :
    readStr (s ++ List.replicate (k + 1) '\x00') = some s := by
  have h1 : '\x00' ∈ s ++ List.replicate (k + 1) '\x00' := by
    simp [List.replicate_succ]
  rw [readStr, if_pos h1]
  congr 1
  rw [List.takeWhile_append_of_pos]
  · simp [List.replicate_succ]
  · intro c hc
    have : c ≠ '\x00' := fun h => hs (h ▸ hc)
    simpa using this

theorem charAt_append (a b : List Char) : charAt (a ++ b) a.length = charAt b 0 := by
  induction a with
  | nil => rfl
  | cons x xs ih => simpa [charAt] using ih

theorem memset0_split (sz n : Nat) (h : n ≤ sz) :
    memset0 sz = List.replicate n '\x00' ++ List.replicate (sz - n) '\x00' := by
  rw [memset0, ← List.replicate_add]
  congr 1
  omega

theorem replicate_split (sz n : Nat) (h : n ≤ sz) :
    List.replicate sz '\x00' = List.replicate n '\x00' ++ List.replicate (sz - n) '\x00' := by
  rw [← List.replicate_add]
  congr 1
  omega

/-- The loop body on a segment `pre ++ '?' :: post`: the path built is
`pre ++ name ++ post`, and no access leaves the buffer. -/
theorem build_wild (sz : Nat) (name pre post l : List Char)
    (hq : '?' ∉ pre) (h0 : '\x00' ∉ pre ++ name ++ post)
    (hsz : pre.length + 1 + post.length + name.length ≤ sz) :
    build sz name (pre ++ '?' :: (post ++ l)) (pre.length + 1 + post.length)
      = .ret (pre ++ name ++ post) := by
  have c1 := copy_loop_mid (pre.length + 1 + post.length) pre []
    (List.replicate pre.length '\x00') (List.replicate (sz - pre.length) '\x00')
    ('?' :: (post ++ l)) hq (by simp) (by simp; omega) (Or.inl rfl)
  simp only [List.nil_append, List.length_nil, Nat.zero_add] at c1
  rw [← memset0_split sz pre.length (by omega)] at c1
  have c2 := memcpy_mid name pre (List.replicate name.length '\x00')
    (List.replicate (sz - pre.length - name.length) '\x00') (by simp)
  rw [List.append_assoc, ← replicate_split (sz - pre.length) name.length (by omega)] at c2
  have c3 := strncpy_mid post.length (pre ++ name) (List.replicate post.length '\x00')
    (List.replicate (sz - pre.length - name.length - post.length) '\x00') (post ++ l)
    (by simp) (by simp)
  rw [List.append_assoc (pre ++ name),
    ← replicate_split (sz - pre.length - name.length) post.length (by omega)] at c3
  simp only [List.length_append, List.take_left'] at c3
  have hk : sz - pre.length - name.length - post.length
      = (sz - pre.length - name.length - post.length - 1) + 1 := by omega
  have c4 := readStr_padded (pre ++ name ++ post)
    (sz - pre.length - name.length - post.length - 1) h0
  rw [← hk] at c4
  have e1 : charAt (pre ++ '?' :: (post ++ l)) pre.length = '?' := by
    rw [charAt_append]; rfl
  have e2 : (pre ++ '?' :: (post ++ l)).drop (pre.length + 1) = post ++ l := by
    simp
  have e3 : pre.length + 1 + post.length - pre.length - 1 = post.length := by omega
  unfold build
  rw [c1]
  simp only []
  rw [c2]
  simp only []
  rw [if_pos e1, if_neg (by omega), e2, e3, c3]
  simp only []
  rw [c4]

/-- The loop body on a segment without wildcard: the process exits, and no
access leaves the buffer. -/
theorem build_nowild (sz : Nat) (name seg l : List Char)
    (hq : '?' ∉ seg) (hl : l.head? ≠ some '?')
    (hsz : seg.length + name.length ≤ sz) :
    build sz name (seg ++ l) seg.length = .exit := by
  have c1 := copy_loop_mid seg.length seg []
    (List.replicate seg.length '\x00') (List.replicate (sz - seg.length) '\x00')
    l hq (by simp) (by simp) (Or.inr (by simp))
  simp only [List.nil_append, List.length_nil, Nat.zero_add] at c1
  rw [← memset0_split sz seg.length (by omega)] at c1
  have c2 := memcpy_mid name seg (List.replicate name.length '\x00')
    (List.replicate (sz - seg.length - name.length) '\x00') (by simp)
  rw [List.append_assoc, ← replicate_split (sz - seg.length) name.length (by omega)] at c2
  have e1 : charAt (seg ++ l) seg.length ≠ '?' := by
    rw [charAt_append]
    cases l with
    | nil => simp [charAt]
    | cons x xs =>
      have : x ≠ '?' := fun h => hl (by simp [h])
      simpa [charAt] using this
  unfold build
  rw [c1]
  simp only []
  rw [c2]
  simp only []
  rw [if_neg e1]

/-! ## The segments of a template -/

theorem segments_nil : segments [] = [] := by
  simp [segments]

theorem segments_cons_semi (p : List Char) : segments (';' :: p) = segments p := by
  simp [segments, List.splitOn]

theorem segments_dropWhile (p : List Char) :
    segments (p.dropWhile (· = ';')) = segments p := by
  induction p with
  | nil => rfl
  | cons c cs ih =>
    by_cases h : c = ';'
    · subst h
      rw [segments_cons_semi, ← ih]
      simp [List.dropWhile]
    · simp [List.dropWhile, h]

theorem segments_split (seg l : List Char) (hne : seg ≠ []) (hs : ';' ∉ seg)
    (hl : l = [] ∨ l.head? = some ';') : segments (seg ++ l) = seg :: segments l := by
  have hp : ∀ x ∈ seg, ¬ ((· == ';') x = true) := by
    intro x hx h
    have : x = ';' := by simpa using h
    exact hs (this ▸ hx)
  rcases hl with hl | hl
  · subst hl
    simp only [List.append_nil, segments_nil]
    rw [segments, List.splitOn, List.splitOnP_eq_single _ _ hp]
    simp [hne]
  · cases l with
    | nil => simp at hl
    | cons x xs =>
      have hx : x = ';' := by simpa using hl
      subst hx
      rw [segments_cons_semi]
      rw [segments, List.splitOn, List.splitOnP_first _ _ hp ';' (by simp)]
      simp [hne, segments, List.splitOn]

theorem dropWhile_head {p : Char → Bool} : ∀ (l : List Char) (c : Char) (cs : List Char),
    l.dropWhile p = c :: cs → p c = false := by
  intro l
  induction l with
  | nil => intro c cs h; simp at h
  | cons x xs ih =>
    intro c cs h
    by_cases hx : p x = true
    · rw [List.dropWhile_cons_of_pos hx] at h
      exact ih c cs h
    · rw [List.dropWhile_cons_of_neg hx] at h
      injection h with h1 _
      subst h1
      simpa using hx

theorem dropWhile_head_or_nil (p : Char → Bool) (l : List Char) :
    l.dropWhile p = [] ∨ ∃ c cs, l.dropWhile p = c :: cs ∧ p c = false := by
  cases h : l.dropWhile p with
  | nil => exact Or.inl rfl
  | cons c cs => exact Or.inr ⟨c, cs, rfl, dropWhile_head l c cs h⟩

theorem not_mem_takeWhile_ne (x : Char) (l : List Char) : x ∉ l.takeWhile (· ≠ x) := by
  intro h
  have := List.mem_takeWhile_imp h
  simp at this

theorem strchr_or_end_head (p : List Char) :
    strchr_or_end p = [] ∨ (strchr_or_end p).head? = some ';' := by
  rcases dropWhile_head_or_nil (· ≠ ';') p with h | ⟨c, cs, h, hc⟩
  · exact Or.inl h
  · right
    have : c = ';' := by simpa using hc
    rw [strchr_or_end, h, this]
    rfl

/-- A segment with a wildcard is the text before its first wildcard, the
wildcard, and the text after it. -/
theorem seg_split (seg : List Char) (h : '?' ∈ seg) :
    seg = seg.takeWhile (· ≠ '?') ++ '?' :: (seg.dropWhile (· ≠ '?')).drop 1 := by
  rcases dropWhile_head_or_nil (· ≠ '?') seg with hd | ⟨c, cs, hd, hc⟩
  · have e := List.takeWhile_append_dropWhile (· ≠ '?') seg
    rw [hd, List.append_nil] at e
    rw [← e] at h
    exact absurd h (not_mem_takeWhile_ne '?' seg)
  · have : c = '?' := by simpa using hc
    subst this
    have e := List.takeWhile_append_dropWhile (· ≠ '?') seg
    rw [hd] at e
    rw [hd]
    simpa using e.symm

/-! ## `_try_open` walks the segments of the template -/

/-- One iteration of the loop of `_try_open` at a path that starts a segment:
the segment is its bytes before the first `';'`, and the body builds the
expansion of a segment with a wildcard and exits on one without. -/
theorem build_segment (sz : Nat) (name p : List Char)
    (h0 : '\x00' ∉ p) (h0n : '\x00' ∉ name) (hsz : p.length + name.length ≤ sz) :
    build sz name p (p.length - (strchr_or_end p).length)
      = if '?' ∈ p.takeWhile (· ≠ ';') then .ret (expand name (p.takeWhile (· ≠ ';')))
        else .exit := by
  have hsplit : p.takeWhile (· ≠ ';') ++ strchr_or_end p = p :=
    List.takeWhile_append_dropWhile (· ≠ ';') p
  generalize hseg : p.takeWhile (· ≠ ';') = seg at hsplit
  generalize hl : strchr_or_end p = l at hsplit
  have hhead : l = [] ∨ l.head? = some ';' := hl ▸ strchr_or_end_head p
  subst hsplit
  have hlen : (seg ++ l).length - l.length = seg.length := by simp
  rw [hlen]
  have h0s : '\x00' ∉ seg := fun h => h0 (List.mem_append_left _ h)
  have hszs : seg.length + name.length ≤ sz := by
    simp at hsz; omega
  by_cases hq : '?' ∈ seg
  · rw [if_pos hq]
    have e := seg_split seg hq
    generalize hpre : seg.takeWhile (· ≠ '?') = pre at e
    generalize hpost : (seg.dropWhile (· ≠ '?')).drop 1 = post at e
    have hqpre : '?' ∉ pre := hpre ▸ not_mem_takeWhile_ne '?' seg
    have hexp : expand name seg = pre ++ name ++ post := by
      rw [expand, hpre, hpost]
    rw [hexp]
    subst e
    have h0c : '\x00' ∉ pre ++ name ++ post := by
      intro h
      rcases List.mem_append.mp h with h | h
      · rcases List.mem_append.mp h with h | h
        · exact h0s (List.mem_append_left _ h)
        · exact h0n h
      · exact h0s (List.mem_append_right _ (List.mem_cons_of_mem _ h))
    have hb := build_wild sz name pre post l hqpre h0c (by simp at hszs; omega)
    have e1 : pre ++ '?' :: post ++ l = pre ++ '?' :: (post ++ l) := by simp
    have e2 : (pre ++ '?' :: post).length = pre.length + 1 + post.length := by
      simp; omega
    rw [e1, e2, hb]
  · rw [if_neg hq]
    have hl2 : l.head? ≠ some '?' := by
      rcases hhead with h | h
      · simp [h]
      · rw [h]; decide
    exact build_nowild sz name seg l hq hl2 hszs

theorem segments_at_segment (c : Char) (cs : List Char) (hc : c ≠ ';') :
    segments (c :: cs)
      = (c :: cs).takeWhile (· ≠ ';') :: segments (strchr_or_end (c :: cs)) := by
  have hsplit : (c :: cs).takeWhile (· ≠ ';') ++ strchr_or_end (c :: cs) = c :: cs :=
    List.takeWhile_append_dropWhile (· ≠ ';') (c :: cs)
  have hne : (c :: cs).takeWhile (· ≠ ';') ≠ [] := by
    simp [List.takeWhile, hc]
  have h := segments_split _ _ hne (not_mem_takeWhile_ne ';' (c :: cs))
    (strchr_or_end_head (c :: cs))
  rw [hsplit] at h
  exact h

theorem strchr_or_end_length (c : Char) (cs : List Char) (hc : c ≠ ';') :
    (strchr_or_end (c :: cs)).length ≤ cs.length := by
  simp only [strchr_or_end]
  rw [List.dropWhile_cons_of_pos (by simpa using hc)]
  exact (List.dropWhile_suffix _).length_le

/-- The loop of `_try_open` with enough iterations and a buffer of the size the
source gives it does what the walk over the segments does. -/
theorem try_open_loop_eq (ld : Loader) (sz : Nat) (name : List Char) (h0n : '\x00' ∉ name) :
    ∀ (fuel : Nat) (path : List Char) (tr : List Event), '\x00' ∉ path →
      path.length < fuel → path.length + name.length ≤ sz →
      try_open_loop ld sz name fuel path tr = walk ld name (segments path) tr := by
  intro fuel
  induction fuel with
  | zero => intro path tr _ h _; omega
  | succ fuel ih =>
    intro path tr h0 hf hsz
    rw [try_open_loop, ← segments_dropWhile path]
    have hsuf : path.dropWhile (· = ';') <:+ path := List.dropWhile_suffix _
    split
    · next hp =>
      rw [hp, segments_nil, walk]
    · next c cs hp =>
      rw [hp] at hsuf
      rw [hp]
      have hc : c ≠ ';' := by
        have := dropWhile_head path c cs hp
        simpa using this
      have h0p : '\x00' ∉ c :: cs := fun h => h0 (hsuf.subset h)
      have hlen : (c :: cs).length ≤ path.length := hsuf.length_le
      have hb := build_segment sz name (c :: cs) h0p h0n (by omega)
      rw [segments_at_segment c cs hc, walk]
      simp only []
      rw [hb]
      have hlt := strchr_or_end_length c cs hc
      have h0l : '\x00' ∉ strchr_or_end (c :: cs) := fun h =>
        h0p ((List.dropWhile_suffix _).subset h)
      by_cases hq : '?' ∈ (c :: cs).takeWhile (· ≠ ';')
      · rw [if_pos hq, if_pos hq]
        simp only []
        by_cases hd : ld.dlopen (expand name ((c :: cs).takeWhile (· ≠ ';'))) = 0
        · rw [if_pos hd, if_pos hd]
          exact ih _ _ h0l (by simp at hlen; omega) (by simp at hlen; omega)
        · rw [if_neg hd, if_neg hd]
      · rw [if_neg hq, if_neg hq]

/-- The function `_try_open` on NUL-free strings is the walk over the segments
of the template. -/
theorem try_open_eq_walk (ld : Loader) (path name : List Char)
    (h0 : '\x00' ∉ path) (h0n : '\x00' ∉ name) :
    _try_open ld path name = walk ld name (segments path) [] :=
  try_open_loop_eq ld _ name h0n _ path [] h0 (Nat.lt_succ_self _) (Nat.le_refl _)

/-! ## The walk over the segments -/

theorem walk_append (ld : Loader) (name : List Char) (pre : List (List Char)) :
    ∀ (rest : List (List Char)) (tr : List Event),
      (∀ s ∈ pre, '?' ∈ s ∧ ld.dlopen (expand name s) = 0) →
      walk ld name (pre ++ rest) tr = walk ld name rest (tr ++ opens name pre) := by
  induction pre with
  | nil => intro rest tr _; simp [opens]
  | cons s ss ih =>
    intro rest tr h
    have hs := h s (List.mem_cons_self _ _)
    have hss : ∀ t ∈ ss, '?' ∈ t ∧ ld.dlopen (expand name t) = 0 :=
      fun t ht => h t (List.mem_cons_of_mem _ ht)
    rw [List.cons_append, walk, if_pos hs.1, if_pos hs.2, ih rest _ hss]
    simp [opens]

theorem walk_all_fail (ld : Loader) (name : List Char) (segs : List (List Char))
    (tr : List Event) (h : ∀ s ∈ segs, '?' ∈ s ∧ ld.dlopen (expand name s) = 0) :
    walk ld name segs tr = (tr ++ opens name segs, .ret 0) := by
  have := walk_append ld name segs [] tr h
  rw [List.append_nil] at this
  rw [this, walk]

theorem walk_first_open (ld : Loader) (name : List Char) (pre post : List (List Char))
    (seg : List Char) (tr : List Event)
    (hpre : ∀ s ∈ pre, '?' ∈ s ∧ ld.dlopen (expand name s) = 0)
    (hseg : '?' ∈ seg) (hdl : ld.dlopen (expand name seg) ≠ 0) :
    walk ld name (pre ++ seg :: post) tr
      = (tr ++ opens name (pre ++ [seg]), .ret (ld.dlopen (expand name seg))) := by
  rw [walk_append ld name pre _ tr hpre, walk, if_pos hseg, if_neg hdl]
  simp [opens]

theorem walk_malformed (ld : Loader) (name : List Char) (pre post : List (List Char))
    (bad : List Char) (tr : List Event)
    (hpre : ∀ s ∈ pre, '?' ∈ s ∧ ld.dlopen (expand name s) = 0)
    (hbad : '?' ∉ bad) :
    walk ld name (pre ++ bad :: post) tr = (tr ++ opens name pre, .exit) := by
  rw [walk_append ld name pre _ tr hpre, walk, if_neg hbad]

/-! ## The lookup `_query` -/

theorem find_range_none (p : Nat → Bool) (n : Nat) :
    (List.range n).find? p = none ↔ ∀ j, j < n → p j = false := by
  simp [List.find?_eq_none]

theorem find_range_some (p : Nat → Bool) (n i : Nat) :
    (List.range n).find? p = some i ↔ i < n ∧ p i = true ∧ ∀ j, j < i → p j = false := by
  induction n generalizing i with
  | zero => simp
  | succ n ih =>
    rw [List.range_succ, List.find?_append]
    cases h : (List.range n).find? p with
    | some k =>
      have hk := (ih k).mp h
      simp only [Option.or, Option.some.injEq]
      constructor
      · intro e
        subst e
        exact ⟨by omega, hk.2.1, hk.2.2⟩
      · intro ⟨_, hpi, hmin⟩
        rcases Nat.lt_trichotomy k i with hlt | heq | hgt
        · have := hmin k hlt
          rw [hk.2.1] at this
          exact absurd this (by simp)
        · exact heq
        · have := hk.2.2 i hgt
          rw [hpi] at this
          exact absurd this (by simp)
    | none =>
      have hn := (find_range_none p n).mp h
      simp only [Option.or]
      by_cases hpn : p n = true
      · simp only [List.find?, hpn, Option.some.injEq]
        constructor
        · intro e
          subst e
          exact ⟨by omega, hpn, hn⟩
        · intro ⟨hlt, hpi, _⟩
          by_contra hne
          have : i < n := by omega
          have := hn i this
          rw [hpi] at this
          exact absurd this (by simp)
      · have hpn2 : p n = false := by simpa using hpn
        simp only [List.find?, hpn2]
        constructor
        · intro e; exact absurd e (by simp)
        · intro ⟨hlt, hpi, _⟩
          have hin : i = n ∨ i < n := by omega
          rcases hin with e | e
          · subst e; rw [hpi] at hpn2; exact absurd hpn2 (by simp)
          · have := hn i e
            rw [hpi] at this
            exact absurd this (by simp)

theorem query_some_iff (M : modules) (name : List Char) (i : Nat) :
    _query M name = some i ↔
      i < M.count ∧ (M.m i).name = name ∧ ∀ j, j < i → (M.m j).name ≠ name := by
  rw [_query, find_range_some]
  simp

theorem query_none_iff (M : modules) (name : List Char) :
    _query M name = none ↔ ∀ i, i < M.count → (M.m i).name ≠ name := by
  rw [_query, find_range_none]
  simp

theorem query_congr (M M' : modules) (name : List Char) (hc : M'.count = M.count)
    (hm : ∀ i, i < M.count → M'.m i = M.m i) : _query M' name = _query M name := by
  cases h : _query M name with
  | none =>
    rw [query_none_iff] at h ⊢
    intro i hi
    rw [hc] at hi
    rw [hm i hi]
    exact h i hi
  | some k =>
    rw [query_some_iff] at h ⊢
    refine ⟨hc ▸ h.1, by rw [hm k h.1]; exact h.2.1, ?_⟩
    intro j hj
    rw [hm j (by omega)]
    exact h.2.2 j hj

/-! ## The branches of `skynet_module_query` -/

theorem open_sym_eq (ld : Loader) (r : skynet_module) :
    open_sym ld r = (lookups r.name r.module, bound ld r.name r.module,
      if ld.dlsym r.module (api_symbol r.name "_init".toList) = 0 then 1 else 0) := rfl

theorem query_hit_eq (ld : Loader) (M : modules) (name : List Char) (i : Nat)
    (h : _query M name = some i) :
    skynet_module_query ld M name = ([], .ret (some i, M)) := by
  simp only [skynet_module_query, h]

theorem query_full_eq (ld : Loader) (M : modules) (name : List Char)
    (h : _query M name = none) (hc : ¬ M.count < MAX_MODULE_TYPE) :
    skynet_module_query ld M name = ([], .ret (none, M)) := by
  simp only [skynet_module_query, h, if_neg hc]

theorem query_load_fail_eq (ld : Loader) (M : modules) (name : List Char) (tr : List Event)
    (h : _query M name = none) (hc : M.count < MAX_MODULE_TYPE)
    (ht : _try_open ld M.path name = (tr, .ret 0)) :
    skynet_module_query ld M name = (tr, .ret (none, M)) := by
  simp [skynet_module_query, h, if_pos hc, ht]

theorem query_exit_eq (ld : Loader) (M : modules) (name : List Char) (tr : List Event)
    (h : _query M name = none) (hc : M.count < MAX_MODULE_TYPE)
    (ht : _try_open ld M.path name = (tr, .exit)) :
    skynet_module_query ld M name = (tr, .exit) := by
  simp only [skynet_module_query, h, if_pos hc, ht]

theorem query_bind_fail_eq (ld : Loader) (M : modules) (name : List Char) (tr : List Event)
    (dl : Nat) (h : _query M name = none) (hc : M.count < MAX_MODULE_TYPE)
    (ht : _try_open ld M.path name = (tr, .ret dl)) (hdl : dl ≠ 0)
    (hi : ld.dlsym dl (api_symbol name "_init".toList) = 0) :
    skynet_module_query ld M name
      = (tr ++ lookups name dl,
          .ret (none, { M with m := Function.update M.m M.count (bound ld name dl) })) := by
  simp [skynet_module_query, h, if_pos hc, ht, hdl, open_sym_eq, setSlot, bound]
  exact hi

theorem query_success_eq (ld : Loader) (M : modules) (name : List Char) (tr : List Event)
    (dl : Nat) (h : _query M name = none) (hc : M.count < MAX_MODULE_TYPE)
    (ht : _try_open ld M.path name = (tr, .ret dl)) (hdl : dl ≠ 0)
    (hi : ld.dlsym dl (api_symbol name "_init".toList) ≠ 0) :
    skynet_module_query ld M name
      = (tr ++ lookups name dl,
          .ret (some M.count,
            { count := M.count + 1, path := M.path,
              m := Function.update M.m M.count (bound ld name dl) })) := by
  simp [skynet_module_query, h, if_pos hc, ht, hdl, open_sym_eq, setSlot, bound]
  exact hi

theorem walk_trace_extends (ld : Loader) (name : List Char) (segs : List (List Char)) :
    ∀ (tr : List Event), ∃ rest, (walk ld name segs tr).1 = tr ++ rest := by
  induction segs with
  | nil => intro tr; exact ⟨[], by simp [walk]⟩
  | cons s ss ih =>
    intro tr
    rw [walk]
    by_cases hs : '?' ∈ s
    · rw [if_pos hs]
      by_cases hd : ld.dlopen (expand name s) = 0
      · rw [if_pos hd]
        obtain ⟨rest, hr⟩ := ih (tr ++ [Event.dlopen (expand name s)])
        exact ⟨Event.dlopen (expand name s) :: rest, by rw [hr]; simp⟩
      · rw [if_neg hd]
        exact ⟨[Event.dlopen (expand name s)], rfl⟩
    · rw [if_neg hs]
      exact ⟨[], by simp⟩

theorem walk_reaches (ld : Loader) (name : List Char) (seg : List Char)
    (post : List (List Char)) (tr : List Event) (hs : '?' ∈ seg) :
    ∃ (rest : List Event) (out : Outcome Nat),
      walk ld name (seg :: post) tr = (tr ++ Event.dlopen (expand name seg) :: rest, out) := by
  rw [walk, if_pos hs]
  by_cases hd : ld.dlopen (expand name seg) = 0
  · rw [if_pos hd]
    obtain ⟨rest, hr⟩ := walk_trace_extends ld name post (tr ++ [Event.dlopen (expand name seg)])
    refine ⟨rest, (walk ld name post (tr ++ [Event.dlopen (expand name seg)])).2, ?_⟩
    apply Prod.ext
    · rw [hr]; simp
    · rfl
  · rw [if_neg hd]
    exact ⟨[], ld.dlopen (expand name seg) |> Outcome.ret, rfl⟩

/-! ## Well-formed templates -/

theorem walk_wellFormed (ld : Loader) (name : List Char) (segs : List (List Char)) :
    ∀ (tr : List Event), (∀ s ∈ segs, '?' ∈ s) →
    ∃ (att : List (List Char)) (dl : Nat),
      walk ld name segs tr = (tr ++ att.map Event.dlopen, .ret dl) ∧
      att <+: segs.map (expand name) ∧
      (∀ c ∈ att.dropLast, ld.dlopen c = 0) ∧
      (dl ≠ 0 → ∃ c, att.getLast? = some c ∧ ld.dlopen c = dl) ∧
      (dl = 0 → att = segs.map (expand name)) ∧
      (dl = 0 ↔ ∀ c ∈ segs.map (expand name), ld.dlopen c = 0) := by
  induction segs with
  | nil =>
    intro tr _
    exact ⟨[], 0, by simp [walk], by simp, by simp, by simp, by simp, by simp⟩
  | cons s ss ih =>
    intro tr h
    have hs : '?' ∈ s := h s (List.mem_cons_self _ _)
    have hss : ∀ t ∈ ss, '?' ∈ t := fun t ht => h t (List.mem_cons_of_mem _ ht)
    by_cases hd : ld.dlopen (expand name s) = 0
    · obtain ⟨att, dl, hw, hp, hfail, hlast, hall, hiff⟩ := ih (tr ++ [Event.dlopen (expand name s)]) hss
      refine ⟨expand name s :: att, dl, ?_, ?_, ?_, ?_, ?_, ?_⟩
      · rw [walk, if_pos hs, if_pos hd, hw]
        simp
      · rw [List.map_cons]
        exact (List.prefix_cons_inj _).mpr hp
      · intro c hc
        cases att with
        | nil => simp at hc
        | cons a as =>
          rw [List.dropLast_cons₂] at hc
          rcases List.mem_cons.mp hc with e | e
          · rw [e]; exact hd
          · exact hfail c e
      · intro hne
        obtain ⟨c, hc, hcd⟩ := hlast hne
        refine ⟨c, ?_, hcd⟩
        cases att with
        | nil => simp at hc
        | cons a as => simpa using hc
      · intro h0
        rw [hall h0, List.map_cons]
      · rw [hiff, List.map_cons]
        constructor
        · intro hx c hc
          rcases List.mem_cons.mp hc with e | e
          · rw [e]; exact hd
          · exact hx c e
        · intro hx c hc
          exact hx c (List.mem_cons_of_mem _ hc)
    · refine ⟨[expand name s], ld.dlopen (expand name s), ?_, ?_, ?_, ?_, ?_, ?_⟩
      · rw [walk, if_pos hs, if_neg hd]
        simp
      · rw [List.map_cons]
        simp
      · simp
      · intro _
        exact ⟨expand name s, by simp, rfl⟩
      · intro h0
        exact absurd h0 hd
      · constructor
        · intro h0
          exact absurd h0 hd
        · intro hx
          exact hx _ (by simp)

theorem walk_some_open (ld : Loader) (name : List Char) (pre : List (List Char)) :
    ∀ (rest : List (List Char)) (tr : List Event), (∀ s ∈ pre, '?' ∈ s) →
    (∃ s ∈ pre, ld.dlopen (expand name s) ≠ 0) →
    ∃ (att : List (List Char)) (dl : Nat),
      walk ld name (pre ++ rest) tr = (tr ++ att.map Event.dlopen, .ret dl) ∧ dl ≠ 0 ∧
      att <+: pre.map (expand name) := by
  induction pre with
  | nil => intro rest tr _ h; simp at h
  | cons s ss ih =>
    intro rest tr hq hex
    have hs : '?' ∈ s := hq s (List.mem_cons_self _ _)
    have hss : ∀ t ∈ ss, '?' ∈ t := fun t ht => hq t (List.mem_cons_of_mem _ ht)
    by_cases hd : ld.dlopen (expand name s) = 0
    · have hex2 : ∃ t ∈ ss, ld.dlopen (expand name t) ≠ 0 := by
        obtain ⟨t, ht, htd⟩ := hex
        rcases List.mem_cons.mp ht with e | e
        · rw [e] at htd; exact absurd hd htd
        · exact ⟨t, e, htd⟩
      obtain ⟨att, dl, hw, hdl, hp⟩ := ih rest (tr ++ [Event.dlopen (expand name s)]) hss hex2
      refine ⟨expand name s :: att, dl, ?_, hdl, ?_⟩
      · rw [List.cons_append, walk, if_pos hs, if_pos hd, hw]
        simp
      · rw [List.map_cons]
        exact (List.prefix_cons_inj _).mpr hp
    · refine ⟨[expand name s], ld.dlopen (expand name s), ?_, hd, ?_⟩
      · rw [List.cons_append, walk, if_pos hs, if_neg hd]
        simp
      · rw [List.map_cons]
        simp

/-! ## Sequences of calls -/

theorem query_loadable (ld : Loader) (M : modules) (name : List Char)
    (hc : M.count < MAX_MODULE_TYPE) (hnew : ∀ i, i < M.count → (M.m i).name ≠ name)
    (h0 : '\x00' ∉ M.path) (hl : loadable ld M.path name) :
    ∃ (tr : List Event) (M1 : modules),
      skynet_module_query ld M name = (tr, .ret (some M.count, M1)) ∧
      M1.count = M.count + 1 ∧ M1.path = M.path ∧
      (∀ i, i ≠ M.count → M1.m i = M.m i) ∧ (M1.m M.count).name = name := by
  obtain ⟨h0n, pre, seg, post, hsegs, hpre, hseg, hdl, hinit⟩ := hl
  have ht : _try_open ld M.path name
      = (opens name (pre ++ [seg]), .ret (ld.dlopen (expand name seg))) := by
    rw [try_open_eq_walk ld M.path name h0 h0n, hsegs,
      walk_first_open ld name pre post seg [] hpre hseg hdl]
    simp
  refine ⟨_, _,
    query_success_eq ld M name _ _ ((query_none_iff M name).mpr hnew) hc ht hdl hinit,
    rfl, rfl, ?_, ?_⟩
  · intro i hi
    simp [Function.update, hi]
  · simp [bound]

theorem query_all_cons (ld : Loader) (M M1 : modules) (n : List Char) (ns : List (List Char))
    (tr : List Event) (r : Option Nat)
    (hq : skynet_module_query ld M n = (tr, .ret (r, M1))) :
    query_all ld M (n :: ns) = (query_all ld M1 ns).map fun p => (r :: p.1, p.2) := by
  simp only [query_all, hq]

theorem query_all_cons_none (ld : Loader) (M : modules) (n : List Char) (ns : List (List Char))
    (h : ∀ tr r M1, skynet_module_query ld M n ≠ (tr, .ret (r, M1))) :
    query_all ld M (n :: ns) = none := by
  rcases hq : skynet_module_query ld M n with ⟨tr, out⟩
  cases out with
  | ret p => exact absurd hq (h tr p.1 p.2)
  | exit => simp only [query_all, hq]
  | fault => simp only [query_all, hq]
  | nofuel => simp only [query_all, hq]

theorem query_all_load (ld : Loader) (names : List (List Char)) :
    ∀ (M : modules), M.count + names.length ≤ MAX_MODULE_TYPE → '\x00' ∉ M.path →
      (∀ n ∈ names, loadable ld M.path n) → names.Nodup →
      (∀ n ∈ names, ∀ i, i < M.count → (M.m i).name ≠ n) →
      ∃ M', query_all ld M names = some ((List.range' M.count names.length).map some, M') ∧
        M'.count = M.count + names.length ∧ M'.path = M.path ∧
        (∀ i, i < M.count → M'.m i = M.m i) ∧
        (∀ j (hj : j < names.length), (M'.m (M.count + j)).name = names[j]) := by
  induction names with
  | nil =>
    intro M _ _ _ _ _
    exact ⟨M, rfl, rfl, rfl, fun _ _ => rfl, fun j hj => absurd hj (by simp)⟩
  | cons n ns ih =>
    intro M hcap h0 hload hnd hfresh
    have hc : M.count < MAX_MODULE_TYPE := by simp at hcap; omega
    obtain ⟨tr, M1, hq, hM1c, hM1p, hM1m, hM1n⟩ := query_loadable ld M n hc
      (fun i hi => hfresh n (List.mem_cons_self _ _) i hi) h0 (hload n (List.mem_cons_self _ _))
    have hnd2 := List.nodup_cons.mp hnd
    obtain ⟨M', hrun, hcount, hpath, hold, hnames⟩ := ih M1
      (by rw [hM1c]; simp at hcap; omega) (by rw [hM1p]; exact h0)
      (fun k hk => by rw [hM1p]; exact hload k (List.mem_cons_of_mem _ hk)) hnd2.2
      (by
        intro k hk i hi
        rw [hM1c] at hi
        by_cases he : i = M.count
        · rw [he, hM1n]
          intro e
          exact hnd2.1 (e ▸ hk)
        · rw [hM1m i he]
          exact hfresh k (List.mem_cons_of_mem _ hk) i (by omega))
    refine ⟨M', ?_, ?_, ?_, ?_, ?_⟩
    · rw [query_all_cons ld M M1 n ns tr _ hq, hrun, hM1c]
      simp [List.range']
    · rw [hcount, hM1c]; simp; omega
    · rw [hpath, hM1p]
    · intro i hi
      rw [hold i (by rw [hM1c]; omega), hM1m i (by omega)]
    · intro j hj
      cases j with
      | zero =>
        rw [Nat.add_zero, hold M.count (by rw [hM1c]; omega), hM1n]
        rfl
      | succ j =>
        have hj2 : j < ns.length := by simpa using hj
        have := hnames j hj2
        rw [hM1c] at this
        have e : M.count + (j + 1) = M.count + 1 + j := by omega
        rw [e, this]
        rfl

theorem query_all_hits (ld : Loader) (M : modules) (names : List (List Char))
    (h : ∀ n ∈ names, ∃ i, _query M n = some i) :
    query_all ld M names = some (names.map (_query M), M) := by
  induction names with
  | nil => rfl
  | cons n ns ih =>
    obtain ⟨i, hi⟩ := h n (List.mem_cons_self _ _)
    rw [query_all_cons ld M M n ns [] _ (query_hit_eq ld M n i hi),
      ih (fun k hk => h k (List.mem_cons_of_mem _ hk))]
    simp [hi]

theorem query_all_append (ld : Loader) (a b : List (List Char)) :
    ∀ (M M1 M2 : modules) (r1 r2 : List (Option Nat)),
      query_all ld M a = some (r1, M1) → query_all ld M1 b = some (r2, M2) →
      query_all ld M (a ++ b) = some (r1 ++ r2, M2) := by
  induction a with
  | nil =>
    intro M M1 M2 r1 r2 h1 h2
    rw [query_all] at h1
    injection h1 with h1
    injection h1 with e1 e2
    subst e1; subst e2
    simpa using h2
  | cons n ns ih =>
    intro M M1 M2 r1 r2 h1 h2
    rw [List.cons_append]
    by_cases hret : ∃ tr r Mx, skynet_module_query ld M n = (tr, .ret (r, Mx))
    · obtain ⟨tr, r, Mx, hq⟩ := hret
      rw [query_all_cons ld M Mx n _ tr r hq] at h1 ⊢
      cases hx : query_all ld Mx ns with
      | none => rw [hx] at h1; simp at h1
      | some px =>
        rw [hx] at h1
        simp only [Option.map_some'] at h1
        injection h1 with h1
        injection h1 with e1 e2
        subst e1; subst e2
        rw [ih Mx px.2 M2 px.1 r2 (by rw [hx]) h2]
        simp
    · have hn : ∀ tr r Mx, skynet_module_query ld M n ≠ (tr, .ret (r, Mx)) :=
        fun tr r Mx e => hret ⟨tr, r, Mx, e⟩
      rw [query_all_cons_none ld M n ns hn] at h1
      simp at h1

theorem query_registered (M : modules) (names : List (List Char)) (hnd : names.Nodup)
    (hc : names.length ≤ M.count)
    (hn : ∀ j (hj : j < names.length), (M.m j).name = names[j]) :
    ∀ j (hj : j < names.length), _query M names[j] = some j := by
  intro j hj
  rw [query_some_iff]
  refine ⟨by omega, hn j hj, ?_⟩
  intro k hk e
  have hk2 : k < names.length := by omega
  rw [hn k hk2] at e
  have := (hnd.getElem_inj_iff).mp e
  omega

theorem query_all_registered (ld : Loader) (M : modules) (names : List (List Char))
    (hnd : names.Nodup) (hc : names.length ≤ M.count)
    (hn : ∀ j (hj : j < names.length), (M.m j).name = names[j]) :
    query_all ld M names = some ((List.range names.length).map some, M) := by
  have hq := query_registered M names hnd hc hn
  have hall : ∀ n ∈ names, ∃ i, _query M n = some i := by
    intro n hmem
    obtain ⟨j, hj, e⟩ := List.getElem_of_mem hmem
    exact ⟨j, e ▸ hq j hj⟩
  rw [query_all_hits ld M names hall]
  congr 2
  apply List.ext_getElem
  · simp
  · intro j h1 h2
    simp only [List.getElem_map, List.getElem_range]
    exact hq j (by simpa using h1)

/-- Thirty-three loadable names in sequence from a fresh registry: the first
thirty-two are stored at indices 0 to 31, the last is refused, and each of the
first thirty-two is then found again at its index. -/
theorem query_all_capacity (ld : Loader) (blk : modules) (path : List Char)
    (names : List (List Char)) (h0 : '\x00' ∉ path) (hlen : names.length = 33)
    (hnd : names.Nodup) (hload : ∀ n ∈ names, loadable ld path n) :
    ∃ M', query_all ld (skynet_module_init blk path) (names ++ names.take 32)
      = some ((List.range 32).map some ++ [none] ++ (List.range 32).map some, M') := by
  have hmax : MAX_MODULE_TYPE = 32 := rfl
  have hsplit : names.take 32 ++ names.drop 32 = names := List.take_append_drop 32 names
  generalize hfirst : names.take 32 = first at hsplit
  have hflen : first.length = 32 := by rw [← hfirst]; simp [hlen]
  obtain ⟨last, hlast⟩ : ∃ last, names.drop 32 = [last] := by
    have hl : (names.drop 32).length = 1 := by simp [hlen]
    match hd : names.drop 32, hl with
    | [x], _ => exact ⟨x, rfl⟩
  rw [hlast] at hsplit
  subst hsplit
  have hnd2 := List.nodup_append.mp hnd
  obtain ⟨M1, hrun, hcount, hpath, _, hnames⟩ :=
    query_all_load ld first (skynet_module_init blk path)
      (by rw [hflen, hmax]; simp [skynet_module_init]) h0
      (fun n hn => hload n (List.mem_append_left _ hn)) hnd2.1
      (fun n _ i hi => absurd hi (by simp [skynet_module_init]))
  have hc0 : (skynet_module_init blk path).count = 0 := rfl
  rw [hc0, Nat.zero_add] at hcount
  simp only [hc0, Nat.zero_add] at hnames hrun
  have hfresh : ∀ i, i < M1.count → (M1.m i).name ≠ last := by
    intro i hi e
    have hi2 : i < first.length := by omega
    rw [hnames i hi2] at e
    exact hnd2.2.2 (List.getElem_mem hi2) (by rw [e]; simp)
  have hfull := query_full_eq ld M1 last ((query_none_iff M1 last).mpr hfresh)
    (by rw [hcount, hflen, hmax]; omega)
  have hrun2 : query_all ld M1 [last] = some ([none], M1) := by
    rw [query_all_cons ld M1 M1 last [] [] none hfull]
    rfl
  have hrun3 := query_all_registered ld M1 first hnd2.1 (by omega) hnames
  have h12 := query_all_append ld first [last] _ M1 M1 _ _ hrun hrun2
  have h123 := query_all_append ld (first ++ [last]) first _ M1 M1 _ _ h12 hrun3
  refine ⟨M1, ?_⟩
  rw [h123, hflen, List.range_eq_range']

theorem query_fault_eq (ld : Loader) (M : modules) (name : List Char) (tr : List Event)
    (h : _query M name = none) (hc : M.count < MAX_MODULE_TYPE)
    (ht : _try_open ld M.path name = (tr, .fault)) :
    skynet_module_query ld M name = (tr, .fault) := by
  simp only [skynet_module_query, h, if_pos hc, ht]

theorem query_nofuel_eq (ld : Loader) (M : modules) (name : List Char) (tr : List Event)
    (h : _query M name = none) (hc : M.count < MAX_MODULE_TYPE)
    (ht : _try_open ld M.path name = (tr, .nofuel)) :
    skynet_module_query ld M name = (tr, .nofuel) := by
  simp only [skynet_module_query, h, if_pos hc, ht]

/-- The ways `skynet_module_query` returns `NULL`: the registry is full, no
candidate opened, or the library opened lacks its init symbol. -/
theorem query_none_cases (ld : Loader) (M M' : modules) (name : List Char) (tr : List Event)
    (h : skynet_module_query ld M name = (tr, .ret (none, M'))) :
    _query M name = none ∧
    ((¬ M.count < MAX_MODULE_TYPE ∧ tr = [] ∧ M' = M) ∨
     (M.count < MAX_MODULE_TYPE ∧ _try_open ld M.path name = (tr, .ret 0) ∧ M' = M) ∨
     (M.count < MAX_MODULE_TYPE ∧ ∃ (tr0 : List Event) (dl : Nat),
        _try_open ld M.path name = (tr0, .ret dl) ∧ dl ≠ 0 ∧
        ld.dlsym dl (api_symbol name "_init".toList) = 0 ∧
        tr = tr0 ++ lookups name dl ∧
        M' = { M with m := Function.update M.m M.count (bound ld name dl) })) := by
  cases hq : _query M name with
  | some i =>
    rw [query_hit_eq ld M name i hq] at h
    simp at h
  | none =>
    refine ⟨rfl, ?_⟩
    by_cases hc : M.count < MAX_MODULE_TYPE
    · rcases ht : _try_open ld M.path name with ⟨tr0, out⟩
      cases out with
      | ret dl =>
        by_cases hdl : dl = 0
        · subst hdl
          rw [query_load_fail_eq ld M name tr0 hq hc ht] at h
          simp only [Prod.mk.injEq, Outcome.ret.injEq, true_and] at h
          right; left
          exact ⟨hc, by rw [h.1], h.2.symm⟩
        · by_cases hi : ld.dlsym dl (api_symbol name "_init".toList) = 0
          · rw [query_bind_fail_eq ld M name tr0 dl hq hc ht hdl hi] at h
            simp only [Prod.mk.injEq, Outcome.ret.injEq, true_and] at h
            right; right
            exact ⟨hc, tr0, dl, rfl, hdl, hi, h.1.symm, h.2.symm⟩
          · rw [query_success_eq ld M name tr0 dl hq hc ht hdl hi] at h
            simp at h
      | exit =>
        rw [query_exit_eq ld M name tr0 hq hc ht] at h
        simp at h
      | fault =>
        rw [query_fault_eq ld M name tr0 hq hc ht] at h
        simp at h
      | nofuel =>
        rw [query_nofuel_eq ld M name tr0 hq hc ht] at h
        simp at h
    · rw [query_full_eq ld M name hq hc] at h
      simp only [Prod.mk.injEq, Outcome.ret.injEq, true_and] at h
      left
      exact ⟨hc, h.1.symm, h.2.symm⟩

/-- A call that returned `NULL` returns `NULL` again, with the same loader
calls, when it is repeated with the same loader on the registry it left. -/
theorem query_none_again (ld : Loader) (M M' : modules) (name : List Char) (tr : List Event)
    (h : skynet_module_query ld M name = (tr, .ret (none, M'))) :
    skynet_module_query ld M' name = (tr, .ret (none, M')) := by
  obtain ⟨hq, hcase⟩ := query_none_cases ld M M' name tr h
  rcases hcase with ⟨_, _, hM⟩ | ⟨_, _, hM⟩ | ⟨hc, tr0, dl, ht, hdl, hi, htr, hM⟩
  · rw [hM]; exact hM ▸ h
  · rw [hM]; exact hM ▸ h
  · have hm : ∀ i, i < M.count → M'.m i = M.m i := by
      intro i hi2
      have : i ≠ M.count := by omega
      rw [hM]
      simp [Function.update, this]
    have hcnt : M'.count = M.count := by rw [hM]
    have hpath : M'.path = M.path := by rw [hM]
    have hq' : _query M' name = none := by rw [query_congr M M' name hcnt hm]; exact hq
    have h2 := query_bind_fail_eq ld M' name tr0 dl hq' (by rw [hcnt]; exact hc)
      (by rw [hpath]; exact ht) hdl hi
    rw [h2, htr]
    congr 3
    rw [hM]
    simp

/-! ## The symbol names of `get_api` -/

theorem strrchr_none (c : Char) (s : List Char) (h : c ∉ s) : strrchr c s = none := by
  induction s with
  | nil => rfl
  | cons x xs ih =>
    have hx : x ≠ c := fun e => h (by simp [e])
    have hxs : c ∉ xs := fun e => h (List.mem_cons_of_mem _ e)
    rw [strrchr, ih hxs]
    simp [hx]

theorem strrchr_last (c : Char) (before after : List Char) (h : c ∉ after) :
    strrchr c (before ++ c :: after) = some (c :: after) := by
  induction before with
  | nil =>
    rw [List.nil_append, strrchr, strrchr_none c after h]
    simp
  | cons b bs ih =>
    rw [List.cons_append, strrchr, ih]

theorem api_symbol_no_dot (name api_name : List Char) (hn : '.' ∉ name)
    (ha : '.' ∉ api_name) : api_symbol name api_name = name ++ api_name := by
  have h : '.' ∉ name ++ api_name := by
    intro e
    rcases List.mem_append.mp e with e | e
    · exact hn e
    · exact ha e
  simp only [api_symbol, strrchr_none '.' _ h]

theorem api_symbol_after_dot (before after api_name : List Char) (hn : '.' ∉ after)
    (ha : '.' ∉ api_name) :
    api_symbol (before ++ '.' :: after) api_name = after ++ api_name := by
  have h : '.' ∉ after ++ api_name := by
    intro e
    rcases List.mem_append.mp e with e | e
    · exact hn e
    · exact ha e
  have e1 : before ++ '.' :: after ++ api_name = before ++ '.' :: (after ++ api_name) := by
    simp
  simp only [api_symbol, e1, strrchr_last '.' before _ h]
  rfl

/-! ## One call of `skynet_module_query`, and the states that follow -/

/-- The ways `skynet_module_query` returns: without touching the registry, after
a failed binding that wrote the unpublished slot `count`, or after a successful
binding that wrote that slot and published it. -/
theorem query_ret_cases (ld : Loader) (M M' : modules) (name : List Char) (tr : List Event)
    (r : Option Nat) (h : skynet_module_query ld M name = (tr, .ret (r, M'))) :
    (M' = M ∧ (r = none ∨ ∃ i, r = some i ∧ _query M name = some i)) ∨
    (r = none ∧ _query M name = none ∧ M.count < MAX_MODULE_TYPE ∧ ∃ (dl : Nat),
      M' = { M with m := Function.update M.m M.count (bound ld name dl) }) ∨
    (r = some M.count ∧ _query M name = none ∧ M.count < MAX_MODULE_TYPE ∧ ∃ (dl : Nat),
      dl ≠ 0 ∧ ld.dlsym dl (api_symbol name "_init".toList) ≠ 0 ∧
      M' = { count := M.count + 1, path := M.path,
             m := Function.update M.m M.count (bound ld name dl) }) := by
  cases hq : _query M name with
  | some i =>
    rw [query_hit_eq ld M name i hq] at h
    simp only [Prod.mk.injEq, Outcome.ret.injEq] at h
    left
    exact ⟨h.2.2.symm, Or.inr ⟨i, h.2.1.symm, rfl⟩⟩
  | none =>
    by_cases hc : M.count < MAX_MODULE_TYPE
    · rcases ht : _try_open ld M.path name with ⟨tr0, out⟩
      cases out with
      | ret dl =>
        by_cases hdl : dl = 0
        · subst hdl
          rw [query_load_fail_eq ld M name tr0 hq hc ht] at h
          simp only [Prod.mk.injEq, Outcome.ret.injEq] at h
          left
          exact ⟨h.2.2.symm, Or.inl h.2.1.symm⟩
        · by_cases hi : ld.dlsym dl (api_symbol name "_init".toList) = 0
          · rw [query_bind_fail_eq ld M name tr0 dl hq hc ht hdl hi] at h
            simp only [Prod.mk.injEq, Outcome.ret.injEq] at h
            right; left
            exact ⟨h.2.1.symm, rfl, hc, dl, h.2.2.symm⟩
          · rw [query_success_eq ld M name tr0 dl hq hc ht hdl hi] at h
            simp only [Prod.mk.injEq, Outcome.ret.injEq] at h
            right; right
            exact ⟨h.2.1.symm, rfl, hc, dl, hdl, hi, h.2.2.symm⟩
      | exit =>
        rw [query_exit_eq ld M name tr0 hq hc ht] at h
        simp at h
      | fault =>
        rw [query_fault_eq ld M name tr0 hq hc ht] at h
        simp at h
      | nofuel =>
        rw [query_nofuel_eq ld M name tr0 hq hc ht] at h
        simp at h
    · rw [query_full_eq ld M name hq hc] at h
      simp only [Prod.mk.injEq, Outcome.ret.injEq] at h
      left
      exact ⟨h.2.2.symm, Or.inl h.2.1.symm⟩

/-- What one returning call leaves in place: the template, the records below
the old `count`, and every slot but the one at the old `count`, which is written
only when `count < 32`; `count` stays or grows by one. -/
theorem query_step_frame (ld : Loader) (M M' : modules) (name : List Char) (tr : List Event)
    (r : Option Nat) (h : skynet_module_query ld M name = (tr, .ret (r, M'))) :
    M'.path = M.path ∧ (M'.count = M.count ∨ M'.count = M.count + 1) ∧
    (∀ i, i < M.count → M'.m i = M.m i) ∧
    (∀ j, M'.m j ≠ M.m j → j = M.count ∧ M.count < MAX_MODULE_TYPE) := by
  have hupd : ∀ (rec : skynet_module) (i : Nat), i ≠ M.count →
      Function.update M.m M.count rec i = M.m i := by
    intro rec i hi
    simp [Function.update, hi]
  rcases query_ret_cases ld M M' name tr r h with ⟨hM, _⟩ | ⟨_, _, hc, dl, hM⟩ |
    ⟨_, _, hc, dl, _, _, hM⟩
  · subst hM
    exact ⟨rfl, Or.inl rfl, fun _ _ => rfl, fun j hj => absurd rfl hj⟩
  · subst hM
    refine ⟨rfl, Or.inl rfl, fun i hi => hupd _ i (by omega), ?_⟩
    intro j hj
    by_cases e : j = M.count
    · exact ⟨e, hc⟩
    · exact absurd (hupd _ j e) hj
  · subst hM
    refine ⟨rfl, Or.inr rfl, fun i hi => hupd _ i (by omega), ?_⟩
    intro j hj
    by_cases e : j = M.count
    · exact ⟨e, hc⟩
    · exact absurd (hupd _ j e) hj

/-- A record returned by a call is published in the registry the call leaves. -/
theorem query_result_published (ld : Loader) (M M' : modules) (name : List Char)
    (tr : List Event) (i : Nat) (h : skynet_module_query ld M name = (tr, .ret (some i, M'))) :
    i < M'.count ∧ (M'.m i).name = name := by
  rcases query_ret_cases ld M M' name tr (some i) h with ⟨hM, hr⟩ | ⟨hr, _⟩ |
    ⟨hr, _, _, dl, _, _, hM⟩
  · subst hM
    rcases hr with hr | ⟨k, hk, hq⟩
    · simp at hr
    · have e : i = k := by simpa using hk
      subst e
      have := (query_some_iff M' name i).mp hq
      exact ⟨this.1, this.2.1⟩
  · simp at hr
  · have e : i = M.count := by simpa using hr
    subst e
    subst hM
    exact ⟨Nat.lt_succ_self _, by simp [bound]⟩

theorem later_trans_step (M M1 : modules) (h : Later M M1) :
    M.count ≤ M1.count ∧ M1.path = M.path ∧ ∀ i, i < M.count → M1.m i = M.m i := by
  induction h with
  | refl => exact ⟨Nat.le_refl _, rfl, fun _ _ => rfl⟩
  | step ld name tr r _ h2 ih =>
    obtain ⟨hp, hc, hm, _⟩ := query_step_frame ld _ _ name tr r h2
    refine ⟨by rcases hc with e | e <;> omega, by rw [hp, ih.2.1], ?_⟩
    intro i hi
    rw [hm i (by omega), ih.2.2 i hi]

/-- A property of registries that `skynet_module_query` preserves holds in every
later state. -/
theorem later_invariant (P : modules → Prop)
    (hstep : ∀ (ld : Loader) (M M' : modules) (name : List Char) (tr : List Event)
      (r : Option Nat), P M → skynet_module_query ld M name = (tr, .ret (r, M')) → P M')
    (M M1 : modules) (h : Later M M1) (h0 : P M) : P M1 := by
  induction h with
  | refl => exact h0
  | step ld name tr r _ h2 ih => exact hstep ld _ _ name tr r ih h2

theorem init_present_step (ld : Loader) (M M' : modules) (name : List Char) (tr : List Event)
    (r : Option Nat) (hinv : ∀ i, i < M.count → (M.m i).init ≠ 0)
    (h : skynet_module_query ld M name = (tr, .ret (r, M'))) :
    ∀ i, i < M'.count → (M'.m i).init ≠ 0 := by
  rcases query_ret_cases ld M M' name tr r h with ⟨hM, _⟩ | ⟨_, _, _, dl, hM⟩ |
    ⟨_, _, _, dl, _, hi, hM⟩
  · subst hM; exact hinv
  · subst hM
    intro i hlt
    have hne : i ≠ M.count := Nat.ne_of_lt hlt
    simp only [Function.update, hne, dite_false]
    exact hinv i hlt
  · subst hM
    intro i hlt
    by_cases e : i = M.count
    · subst e
      simpa [bound] using hi
    · have hlt2 : i < M.count := by
        have : i < M.count + 1 := hlt
        omega
      simp only [Function.update, e, dite_false]
      exact hinv i hlt2

theorem unique_names_step (ld : Loader) (M M' : modules) (name : List Char) (tr : List Event)
    (r : Option Nat)
    (hinv : ∀ i j, i < M.count → j < M.count → (M.m i).name = (M.m j).name → i = j)
    (h : skynet_module_query ld M name = (tr, .ret (r, M'))) :
    ∀ i j, i < M'.count → j < M'.count → (M'.m i).name = (M'.m j).name → i = j := by
  rcases query_ret_cases ld M M' name tr r h with ⟨hM, _⟩ | ⟨_, _, _, dl, hM⟩ |
    ⟨_, hq, _, dl, _, _, hM⟩
  · subst hM; exact hinv
  · subst hM
    intro i j hi hj
    have hni : i ≠ M.count := Nat.ne_of_lt hi
    have hnj : j ≠ M.count := Nat.ne_of_lt hj
    simp only [Function.update, hni, hnj, dite_false]
    exact hinv i j hi hj
  · subst hM
    have hnew := (query_none_iff M name).mp hq
    intro i j hi hj
    have hi1 : i < M.count + 1 := hi
    have hj1 : j < M.count + 1 := hj
    by_cases ei : i = M.count
    · by_cases ej : j = M.count
      · intro _; rw [ei, ej]
      · have hj2 : j < M.count := by omega
        subst ei
        simp only [Function.update, ej, dite_false, dite_true, bound]
        intro e
        exact absurd e.symm (hnew j hj2)
    · have hi2 : i < M.count := by omega
      by_cases ej : j = M.count
      · subst ej
        simp only [Function.update, ei, dite_false, dite_true, bound]
        intro e
        exact absurd e (hnew i hi2)
      · have hj2 : j < M.count := by omega
        simp only [Function.update, ei, ej, dite_false]
        exact hinv i j hi2 hj2

theorem count_bound_step (ld : Loader) (M M' : modules) (name : List Char) (tr : List Event)
    (r : Option Nat) (hinv : M.count ≤ MAX_MODULE_TYPE)
    (h : skynet_module_query ld M name = (tr, .ret (r, M'))) :
    M'.count ≤ MAX_MODULE_TYPE := by
  rcases query_ret_cases ld M M' name tr r h with ⟨hM, _⟩ | ⟨_, _, _, dl, hM⟩ |
    ⟨_, _, hc, dl, _, _, hM⟩
  · subst hM; exact hinv
  · subst hM; exact hinv
  · subst hM; exact hc

/-! ## The lifecycle and the buffer bound -/

theorem no_instance_eq (w : Nat) : no_instance w = 2 ^ w - 1 := by
  have hpos : 0 < 2 ^ w := Nat.two_pow_pos w
  have h1 : (~~~ (0 : Int)) = -1 := rfl
  have h2 : ((-1 : Int) % (2 : Int) ^ w) = ((2 ^ w - 1 : Nat) : Int) := by
    have e : ((2 : Int) ^ w) = ((2 ^ w : Nat) : Int) := by push_cast; rfl
    rw [e, ← Int.add_emod_self]
    have e2 : (-1 : Int) + ((2 ^ w : Nat) : Int) = ((2 ^ w - 1 : Nat) : Int) := by
      omega
    rw [e2]
    apply Int.emod_eq_of_lt
    · exact Int.ofNat_nonneg _
    · omega
  rw [no_instance, h1, h2]
  rfl

theorem splitOnP_length_le (p : Char → Bool) (xs : List Char) :
    ∀ s ∈ xs.splitOnP p, s.length ≤ xs.length := by
  induction xs with
  | nil => intro s hs; simp at hs; simp [hs]
  | cons x xs ih =>
    intro s hs
    rw [List.splitOnP_cons] at hs
    by_cases hx : p x = true
    · rw [if_pos hx] at hs
      rcases List.mem_cons.mp hs with e | e
      · simp [e]
      · have := ih s e
        simp; omega
    · rw [if_neg hx] at hs
      cases hL : xs.splitOnP p with
      | nil => rw [hL] at hs; simp [List.modifyHead] at hs
      | cons h t =>
        rw [hL] at hs ih
        simp only [List.modifyHead] at hs
        rcases List.mem_cons.mp hs with e | e
        · have := ih h (List.mem_cons_self _ _)
          rw [e]; simp; omega
        · have := ih s (List.mem_cons_of_mem _ e)
          simp; omega

theorem segments_length_le (path seg : List Char) (h : seg ∈ segments path) :
    seg.length ≤ path.length := by
  have hmem : seg ∈ path.splitOn ';' := (List.mem_filter.mp h).1
  exact splitOnP_length_le _ path seg hmem

theorem expand_length (name seg : List Char) (h : '?' ∈ seg) :
    (expand name seg).length + 1 = seg.length + name.length := by
  have e := seg_split seg h
  have hl := congrArg List.length e
  simp only [List.length_append, List.length_cons] at hl
  simp only [expand, List.length_append]
  omega

theorem walk_outcome (ld : Loader) (name : List Char) (segs : List (List Char)) :
    ∀ (tr : List Event),
      (walk ld name segs tr).2 = .exit ∨ ∃ dl, (walk ld name segs tr).2 = .ret dl := by
  induction segs with
  | nil => intro tr; exact Or.inr ⟨0, rfl⟩
  | cons s ss ih =>
    intro tr
    rw [walk]
    by_cases hs : '?' ∈ s
    · rw [if_pos hs]
      by_cases hd : ld.dlopen (expand name s) = 0
      · rw [if_pos hd]; exact ih _
      · rw [if_neg hd]; exact Or.inr ⟨_, rfl⟩
    · rw [if_neg hs]; exact Or.inl rfl

theorem walk_trace_mem (ld : Loader) (name : List Char) (segs : List (List Char)) :
    ∀ (tr : List Event) (e : Event), e ∈ (walk ld name segs tr).1 →
      e ∈ tr ∨ ∃ seg ∈ segs, '?' ∈ seg ∧ e = Event.dlopen (expand name seg) := by
  induction segs with
  | nil => intro tr e h; exact Or.inl h
  | cons s ss ih =>
    intro tr e h
    rw [walk] at h
    by_cases hs : '?' ∈ s
    · rw [if_pos hs] at h
      have hmem : e ∈ tr ++ [Event.dlopen (expand name s)] →
          e ∈ tr ∨ ∃ seg ∈ s :: ss, '?' ∈ seg ∧ e = Event.dlopen (expand name seg) := by
        intro hm
        rcases List.mem_append.mp hm with h1 | h1
        · exact Or.inl h1
        · exact Or.inr ⟨s, List.mem_cons_self _ _, hs, by simpa using h1⟩
      by_cases hd : ld.dlopen (expand name s) = 0
      · rw [if_pos hd] at h
        rcases ih _ e h with h1 | ⟨seg, hseg, hq, he⟩
        · exact hmem h1
        · exact Or.inr ⟨seg, List.mem_cons_of_mem _ hseg, hq, he⟩
      · rw [if_neg hd] at h
        exact hmem h
    · rw [if_neg hs] at h
      exact Or.inl h

/-! ## The first candidate that opens, and the fatal exit -/

theorem first_open_split (ld : Loader) (name : List Char) (pre : List (List Char))
    (h : ∃ s ∈ pre, ld.dlopen (expand name s) ≠ 0) :
    ∃ (a : List (List Char)) (s : List Char) (b : List (List Char)), pre = a ++ s :: b ∧
      (∀ t ∈ a, ld.dlopen (expand name t) = 0) ∧ ld.dlopen (expand name s) ≠ 0 := by
  induction pre with
  | nil => simp at h
  | cons x xs ih =>
    by_cases hx : ld.dlopen (expand name x) = 0
    · have hex : ∃ s ∈ xs, ld.dlopen (expand name s) ≠ 0 := by
        obtain ⟨s, hs, hd⟩ := h
        rcases List.mem_cons.mp hs with e | e
        · rw [e] at hd; exact absurd hx hd
        · exact ⟨s, e, hd⟩
      obtain ⟨a, s, b, hsplit, ha, hs⟩ := ih hex
      refine ⟨x :: a, s, b, by rw [hsplit]; rfl, ?_, hs⟩
      intro t ht
      rcases List.mem_cons.mp ht with e | e
      · rw [e]; exact hx
      · exact ha t e
    · exact ⟨[], x, xs, rfl, by simp, hx⟩

/-- The walk ends in the fatal exit exactly when it reaches a segment without
wildcard, all candidates before it having failed to open. -/
theorem walk_exit_iff (ld : Loader) (name : List Char) (segs : List (List Char)) :
    ∀ (tr : List Event), (walk ld name segs tr).2 = .exit ↔
      ∃ (p1 : List (List Char)) (bad : List Char) (p2 : List (List Char)),
        segs = p1 ++ bad :: p2 ∧
        (∀ t ∈ p1, '?' ∈ t ∧ ld.dlopen (expand name t) = 0) ∧ '?' ∉ bad := by
  induction segs with
  | nil =>
    intro tr
    constructor
    · intro h; simp [walk] at h
    · intro ⟨p1, bad, p2, h, _⟩; simp at h
  | cons s ss ih =>
    intro tr
    rw [walk]
    by_cases hs : '?' ∈ s
    · rw [if_pos hs]
      by_cases hd : ld.dlopen (expand name s) = 0
      · rw [if_pos hd, ih]
        constructor
        · intro ⟨p1, bad, p2, h, hp1, hbad⟩
          refine ⟨s :: p1, bad, p2, by rw [h]; rfl, ?_, hbad⟩
          intro t ht
          rcases List.mem_cons.mp ht with e | e
          · rw [e]; exact ⟨hs, hd⟩
          · exact hp1 t e
        · intro ⟨p1, bad, p2, h, hp1, hbad⟩
          cases p1 with
          | nil =>
            simp only [List.nil_append, List.cons.injEq] at h
            exact absurd (h.1 ▸ hs) hbad
          | cons x xs =>
            simp only [List.cons_append, List.cons.injEq] at h
            exact ⟨xs, bad, p2, h.2, fun t ht => hp1 t (List.mem_cons_of_mem _ ht), hbad⟩
      · rw [if_neg hd]
        constructor
        · intro h; simp at h
        · intro ⟨p1, bad, p2, h, hp1, hbad⟩
          cases p1 with
          | nil =>
            simp only [List.nil_append, List.cons.injEq] at h
            exact absurd (h.1 ▸ hs) hbad
          | cons x xs =>
            simp only [List.cons_append, List.cons.injEq] at h
            have := (hp1 x (List.mem_cons_self _ _)).2
            rw [← h.1] at this
            exact absurd this hd
    · rw [if_neg hs]
      constructor
      · intro _
        exact ⟨[], s, ss, rfl, by simp, hs⟩
      · intro _; rfl

/-! ## The claims -/

/-- C1. Hit path of `skynet_module_query`: when some record below `count` has
the requested name, the call returns the record of lowest index with that name,
makes no loader call whatever the loader is, and leaves the registry as it was;
a second call, with any loader, returns the same record. -/
theorem skynet_module_query_hit (ld ld2 : Loader) (M : modules) (name : List Char)
    (h : ∃ i, i < M.count ∧ (M.m i).name = name) :
    ∃ i, i < M.count ∧ (M.m i).name = name ∧ (∀ j, j < i → (M.m j).name ≠ name) ∧
      skynet_module_query ld M name = ([], .ret (some i, M)) ∧
      skynet_module_query ld2 M name = ([], .ret (some i, M)) := by
  cases hq : _query M name with
  | none =>
    obtain ⟨i, hi, hn⟩ := h
    exact absurd hn ((query_none_iff M name).mp hq i hi)
  | some k =>
    have hk := (query_some_iff M name k).mp hq
    exact ⟨k, hk.1, hk.2.1, hk.2.2, query_hit_eq ld M name k hq, query_hit_eq ld2 M name k hq⟩

/-- C1 at a registry whose one record is `echo`, with two different loaders. -/
theorem skynet_module_query_hit_witness :
    (∃ i, i < registryEcho.count ∧ (registryEcho.m i).name = "echo".toList) ∧
    ∃ i, i < registryEcho.count ∧ (registryEcho.m i).name = "echo".toList ∧
      (∀ j, j < i → (registryEcho.m j).name ≠ "echo".toList) ∧
      skynet_module_query loaderAll registryEcho "echo".toList
        = ([], .ret (some i, registryEcho)) ∧
      skynet_module_query loaderNone registryEcho "echo".toList
        = ([], .ret (some i, registryEcho)) :=
  ⟨⟨0, by decide, rfl⟩,
    skynet_module_query_hit loaderAll loaderNone registryEcho "echo".toList ⟨0, by decide, rfl⟩⟩

/-- C2. Successful miss of `skynet_module_query`: with `count < 32`, a name no
published record has, and a loader for which the candidate of segment `seg` is
the first to open and the init symbol resolves in the opened library, the call
opens the candidates up to that one, looks the four symbols up, and returns the
record at index old `count`, whose name is the requested name, whose handle is
the handle of that candidate and whose entry points are the four lookup results;
`count` grows by one and the other slots are untouched. -/
theorem skynet_module_query_miss_success (ld : Loader) (M : modules) (name : List Char)
    (pre post : List (List Char)) (seg : List Char)
    (hcount : M.count < MAX_MODULE_TYPE)
    (hnew : ∀ i, i < M.count → (M.m i).name ≠ name)
    (h0 : '\x00' ∉ M.path) (h0n : '\x00' ∉ name)
    (hsegs : segments M.path = pre ++ seg :: post)
    (hpre : ∀ s ∈ pre, '?' ∈ s ∧ ld.dlopen (expand name s) = 0)
    (hseg : '?' ∈ seg) (hdl : ld.dlopen (expand name seg) ≠ 0)
    (hinit : ld.dlsym (ld.dlopen (expand name seg)) (api_symbol name "_init".toList) ≠ 0) :
    ∃ M', skynet_module_query ld M name
        = (opens name (pre ++ [seg]) ++ lookups name (ld.dlopen (expand name seg)),
            .ret (some M.count, M')) ∧
      M'.count = M.count + 1 ∧ M'.path = M.path ∧
      (M'.m M.count).name = name ∧
      (M'.m M.count).module = ld.dlopen (expand name seg) ∧
      (M'.m M.count).create
        = ld.dlsym (ld.dlopen (expand name seg)) (api_symbol name "_create".toList) ∧
      (M'.m M.count).init
        = ld.dlsym (ld.dlopen (expand name seg)) (api_symbol name "_init".toList) ∧
      (M'.m M.count).release
        = ld.dlsym (ld.dlopen (expand name seg)) (api_symbol name "_release".toList) ∧
      (M'.m M.count).signal
        = ld.dlsym (ld.dlopen (expand name seg)) (api_symbol name "_signal".toList) ∧
      ∀ i, i ≠ M.count → M'.m i = M.m i := by
  have ht : _try_open ld M.path name
      = (opens name (pre ++ [seg]), .ret (ld.dlopen (expand name seg))) := by
    rw [try_open_eq_walk ld M.path name h0 h0n, hsegs,
      walk_first_open ld name pre post seg [] hpre hseg hdl]
    simp
  refine ⟨_, query_success_eq ld M name _ _ ((query_none_iff M name).mpr hnew) hcount ht hdl hinit,
    rfl, rfl, ?_, ?_, ?_, ?_, ?_, ?_, ?_⟩
  · simp [bound]
  · simp [bound]
  · simp [bound]
  · simp [bound]
  · simp [bound]
  · simp [bound]
  · intro i hi
    simp [Function.update, hi]

/-- C2 at an empty registry, the name `echo` and a loader that opens every path. -/
theorem skynet_module_query_miss_success_witness :
    ∃ M', skynet_module_query loaderAll registryEmpty "echo".toList
        = (opens "echo".toList ([] ++ ["./svc/?.so".toList])
            ++ lookups "echo".toList (loaderAll.dlopen (expand "echo".toList "./svc/?.so".toList)),
            .ret (some registryEmpty.count, M')) ∧
      M'.count = registryEmpty.count + 1 ∧ M'.path = registryEmpty.path ∧
      (M'.m registryEmpty.count).name = "echo".toList ∧
      (M'.m registryEmpty.count).module
        = loaderAll.dlopen (expand "echo".toList "./svc/?.so".toList) ∧
      (M'.m registryEmpty.count).create
        = loaderAll.dlsym (loaderAll.dlopen (expand "echo".toList "./svc/?.so".toList))
            (api_symbol "echo".toList "_create".toList) ∧
      (M'.m registryEmpty.count).init
        = loaderAll.dlsym (loaderAll.dlopen (expand "echo".toList "./svc/?.so".toList))
            (api_symbol "echo".toList "_init".toList) ∧
      (M'.m registryEmpty.count).release
        = loaderAll.dlsym (loaderAll.dlopen (expand "echo".toList "./svc/?.so".toList))
            (api_symbol "echo".toList "_release".toList) ∧
      (M'.m registryEmpty.count).signal
        = loaderAll.dlsym (loaderAll.dlopen (expand "echo".toList "./svc/?.so".toList))
            (api_symbol "echo".toList "_signal".toList) ∧
      ∀ i, i ≠ registryEmpty.count → M'.m i = registryEmpty.m i :=
  skynet_module_query_miss_success loaderAll registryEmpty "echo".toList
    [] ["./lib/?.dll".toList] "./svc/?.so".toList
    (by decide) (by decide) (by decide) (by decide) (by decide) (by decide) (by decide)
    (by decide) (by decide)

/-- C3. Failure atomicity of `skynet_module_query`: for a name no published
record has, if every candidate fails to open, or the first candidate that opens
lacks the init symbol, the call returns `NULL`, `count` and the template are
unchanged, every record below `count` is unchanged, and every later lookup
`_query` answers as before the call. -/
theorem skynet_module_query_failure_atomic (ld : Loader) (M : modules) (name : List Char)
    (hnew : ∀ i, i < M.count → (M.m i).name ≠ name)
    (h0 : '\x00' ∉ M.path) (h0n : '\x00' ∉ name)
    (hfail : (∀ s ∈ segments M.path, '?' ∈ s ∧ ld.dlopen (expand name s) = 0) ∨
      ∃ pre seg post, segments M.path = pre ++ seg :: post ∧
        (∀ s ∈ pre, '?' ∈ s ∧ ld.dlopen (expand name s) = 0) ∧
        '?' ∈ seg ∧ ld.dlopen (expand name seg) ≠ 0 ∧
        ld.dlsym (ld.dlopen (expand name seg)) (api_symbol name "_init".toList) = 0) :
    ∃ tr M', skynet_module_query ld M name = (tr, .ret (none, M')) ∧
      M'.count = M.count ∧ M'.path = M.path ∧
      (∀ i, i < M.count → M'.m i = M.m i) ∧
      ∀ n, _query M' n = _query M n := by
  have hq : _query M name = none := (query_none_iff M name).mpr hnew
  by_cases hc : M.count < MAX_MODULE_TYPE
  · rcases hfail with hall | ⟨pre, seg, post, hsegs, hpre, hseg, hdl, hinit⟩
    · have ht : _try_open ld M.path name = (opens name (segments M.path), .ret 0) := by
        rw [try_open_eq_walk ld M.path name h0 h0n, walk_all_fail ld name _ [] hall]
        simp
      exact ⟨_, M, query_load_fail_eq ld M name _ hq hc ht, rfl, rfl, fun _ _ => rfl,
        fun _ => rfl⟩
    · have ht : _try_open ld M.path name
          = (opens name (pre ++ [seg]), .ret (ld.dlopen (expand name seg))) := by
        rw [try_open_eq_walk ld M.path name h0 h0n, hsegs,
          walk_first_open ld name pre post seg [] hpre hseg hdl]
        simp
      have hm : ∀ i, i < M.count →
          Function.update M.m M.count (bound ld name (ld.dlopen (expand name seg))) i = M.m i := by
        intro i hi
        have : i ≠ M.count := by omega
        simp [Function.update, this]
      exact ⟨_, _, query_bind_fail_eq ld M name _ _ hq hc ht hdl hinit, rfl, rfl, hm,
        fun n => query_congr M _ n rfl hm⟩
  · exact ⟨_, M, query_full_eq ld M name hq hc, rfl, rfl, fun _ _ => rfl, fun _ => rfl⟩

/-- C3 at an empty registry and a loader whose libraries lack every symbol. -/
theorem skynet_module_query_failure_atomic_witness :
    ∃ tr M', skynet_module_query loaderNoInit registryEmpty "echo".toList
        = (tr, .ret (none, M')) ∧
      M'.count = registryEmpty.count ∧ M'.path = registryEmpty.path ∧
      (∀ i, i < registryEmpty.count → M'.m i = registryEmpty.m i) ∧
      ∀ n, _query M' n = _query registryEmpty n :=
  skynet_module_query_failure_atomic loaderNoInit registryEmpty "echo".toList
    (by decide) (by decide) (by decide)
    (Or.inr ⟨[], "./svc/?.so".toList, ["./lib/?.dll".toList],
      by decide, by decide, by decide, by decide, by decide⟩)

/-- C4. Capacity exhaustion: with `count = 32` a call for a name no published
record has returns `NULL` without any loader call, whatever the loader, and
leaves the registry as it was, so that every registered name is still found at
its index; and 33 distinct loadable names queried in sequence on a fresh
registry get the indices 0 to 31 and then `NULL`, after which each of the first
32 names is found again at the index it got. -/
theorem skynet_module_query_capacity :
    (∀ (ld ld2 : Loader) (M : modules) (name : List Char),
      M.count = 32 → (∀ i, i < M.count → (M.m i).name ≠ name) →
      skynet_module_query ld M name = ([], .ret (none, M)) ∧
      ∀ (n : List Char) (i : Nat), i < M.count → (M.m i).name = n →
        (∀ j, j < i → (M.m j).name ≠ n) →
        skynet_module_query ld2 M n = ([], .ret (some i, M))) ∧
    (∀ (ld : Loader) (blk : modules) (path : List Char) (names : List (List Char)),
      '\x00' ∉ path → names.length = 33 → names.Nodup → (∀ n ∈ names, loadable ld path n) →
      ∃ M', query_all ld (skynet_module_init blk path) (names ++ names.take 32)
        = some ((List.range 32).map some ++ [none] ++ (List.range 32).map some, M')) := by
  constructor
  · intro ld ld2 M name hfull hnew
    have hc : ¬ M.count < MAX_MODULE_TYPE := by rw [hfull]; decide
    refine ⟨query_full_eq ld M name ((query_none_iff M name).mpr hnew) hc, ?_⟩
    intro n i hi hn hmin
    exact query_hit_eq ld2 M n i ((query_some_iff M n i).mpr ⟨hi, hn, hmin⟩)
  · intro ld blk path names h0 hlen hnd hload
    exact query_all_capacity ld blk path names h0 hlen hnd hload

/-- C4 at a registry with 32 records, and at the 33 names `a`, `aa`, ... on a fresh one. -/
theorem skynet_module_query_capacity_witness :
    (skynet_module_query loaderAll registryFull "echo".toList = ([], .ret (none, registryFull)) ∧
      ∀ (n : List Char) (i : Nat), i < registryFull.count → (registryFull.m i).name = n →
        (∀ j, j < i → (registryFull.m j).name ≠ n) →
        skynet_module_query loaderNone registryFull n = ([], .ret (some i, registryFull))) ∧
    ∃ M', query_all loaderAll (skynet_module_init registryEmpty "./svc/?.so".toList)
        (names33 ++ names33.take 32)
      = some ((List.range 32).map some ++ [none] ++ (List.range 32).map some, M') :=
  ⟨skynet_module_query_capacity.1 loaderAll loaderNone registryFull "echo".toList rfl
      (by decide),
    skynet_module_query_capacity.2 loaderAll registryEmpty "./svc/?.so".toList names33
      (by decide) (by decide) (by decide)
      (fun n hn => ⟨(by decide : ∀ k ∈ names33, '\x00' ∉ k) n hn,
        [], "./svc/?.so".toList, [], by decide, by simp, by decide,
        by simp [loaderAll], by simp [loaderAll]⟩)⟩

/-- C5. No negative caching: when a call with `count < 32` returned `NULL`, the
loader calls it made are the opens of `_try_open`, followed by the four symbol
lookups when a library opened; the same call repeated with the same loader makes
the same loader calls again and returns `NULL` again; and repeated with a loader
for which a candidate opens and the init symbol resolves, it opens the
candidates, binds the symbols and registers the name at index `count`. -/
theorem skynet_module_query_no_negative_cache (ld : Loader) (M M' : modules)
    (name : List Char) (tr : List Event)
    (hcount : M.count < MAX_MODULE_TYPE)
    (h : skynet_module_query ld M name = (tr, .ret (none, M'))) :
    skynet_module_query ld M' name = (tr, .ret (none, M')) ∧
    (_try_open ld M.path name = (tr, .ret 0) ∨
      ∃ (tr0 : List Event) (dl : Nat), _try_open ld M.path name = (tr0, .ret dl) ∧ dl ≠ 0 ∧
        ld.dlsym dl (api_symbol name "_init".toList) = 0 ∧ tr = tr0 ++ lookups name dl) ∧
    ∀ (ld2 : Loader) (pre post : List (List Char)) (seg : List Char),
      '\x00' ∉ M.path → '\x00' ∉ name → segments M.path = pre ++ seg :: post →
      (∀ s ∈ pre, '?' ∈ s ∧ ld2.dlopen (expand name s) = 0) →
      '?' ∈ seg → ld2.dlopen (expand name seg) ≠ 0 →
      ld2.dlsym (ld2.dlopen (expand name seg)) (api_symbol name "_init".toList) ≠ 0 →
      ∃ M'', skynet_module_query ld2 M' name
          = (opens name (pre ++ [seg]) ++ lookups name (ld2.dlopen (expand name seg)),
              .ret (some M.count, M'')) ∧
        M''.count = M.count + 1 ∧ (M''.m M.count).name = name := by
  obtain ⟨hq, hcase⟩ := query_none_cases ld M M' name tr h
  have hM : M'.count = M.count ∧ M'.path = M.path ∧ ∀ i, i < M.count → M'.m i = M.m i := by
    rcases hcase with ⟨_, _, hM⟩ | ⟨_, _, hM⟩ | ⟨_, tr0, dl, _, _, _, _, hM⟩
    · rw [hM]; exact ⟨rfl, rfl, fun _ _ => rfl⟩
    · rw [hM]; exact ⟨rfl, rfl, fun _ _ => rfl⟩
    · rw [hM]
      refine ⟨rfl, rfl, ?_⟩
      intro i hi
      have : i ≠ M.count := by omega
      simp [Function.update, this]
  refine ⟨query_none_again ld M M' name tr h, ?_, ?_⟩
  · rcases hcase with ⟨hc, _, _⟩ | ⟨_, ht, _⟩ | ⟨_, tr0, dl, ht, hdl, hi, htr, _⟩
    · exact absurd hcount hc
    · exact Or.inl ht
    · exact Or.inr ⟨tr0, dl, ht, hdl, hi, htr⟩
  · intro ld2 pre post seg h0 h0n hsegs hpre hseg hdl hinit
    have hq' : _query M' name = none := by
      rw [query_congr M M' name hM.1 hM.2.2]; exact hq
    have ht : _try_open ld2 M'.path name
        = (opens name (pre ++ [seg]), .ret (ld2.dlopen (expand name seg))) := by
      rw [hM.2.1, try_open_eq_walk ld2 M.path name h0 h0n, hsegs,
        walk_first_open ld2 name pre post seg [] hpre hseg hdl]
      simp
    have h2 := query_success_eq ld2 M' name _ _ hq' (by rw [hM.1]; exact hcount) ht hdl hinit
    rw [hM.1] at h2
    exact ⟨_, h2, rfl, by simp [bound]⟩

/-- C5 at the registry left by a failed binding of `echo`: the same failure again, and success with a loader that resolves the symbols. -/
theorem skynet_module_query_no_negative_cache_witness :
    skynet_module_query loaderNoInit
        { registryEmpty with
          m := Function.update registryEmpty.m registryEmpty.count
            (bound loaderNoInit "echo".toList 7) } "echo".toList
      = ([Event.dlopen "./svc/echo.so".toList] ++ lookups "echo".toList 7,
          .ret (none, { registryEmpty with
            m := Function.update registryEmpty.m registryEmpty.count
              (bound loaderNoInit "echo".toList 7) })) ∧
    ∃ M'', skynet_module_query loaderAll
        { registryEmpty with
          m := Function.update registryEmpty.m registryEmpty.count
            (bound loaderNoInit "echo".toList 7) } "echo".toList
        = (opens "echo".toList ([] ++ ["./svc/?.so".toList])
            ++ lookups "echo".toList (loaderAll.dlopen (expand "echo".toList "./svc/?.so".toList)),
            .ret (some registryEmpty.count, M'')) ∧
      M''.count = registryEmpty.count + 1 ∧
      (M''.m registryEmpty.count).name = "echo".toList :=
  have h := skynet_module_query_no_negative_cache loaderNoInit registryEmpty
    { registryEmpty with
      m := Function.update registryEmpty.m registryEmpty.count
        (bound loaderNoInit "echo".toList 7) }
    "echo".toList ([Event.dlopen "./svc/echo.so".toList] ++ lookups "echo".toList 7)
    (by decide)
    (query_bind_fail_eq loaderNoInit registryEmpty "echo".toList
      [Event.dlopen "./svc/echo.so".toList] 7 (by decide) (by decide) (by decide) (by decide)
      (by decide))
  ⟨h.1, h.2.2 loaderAll [] ["./lib/?.dll".toList] "./svc/?.so".toList
    (by decide) (by decide) (by decide) (by decide) (by decide) (by decide) (by decide)⟩

/-- C6. Candidate paths of `_try_open`: for a template whose non-empty segments
all contain `'?'` and a name, when every open fails the paths offered to the
opener are, in order, those of `resolve`: the template split on `';'`, empty
segments dropped, each segment mapped to the text before its wildcard, the name,
the text after its wildcard; the call then returns `NULL`. For the template
`./svc/?.so;./lib/?.dll` and the name `echo` these are `./svc/echo.so` and
`./lib/echo.dll`. -/
theorem try_open_candidates (ld : Loader) (path name : List Char)
    (hwf : wellFormed path) (h0 : '\x00' ∉ path) (h0n : '\x00' ∉ name)
    (hfail : ∀ c ∈ resolve path name, ld.dlopen c = 0) :
    _try_open ld path name = ((resolve path name).map Event.dlopen, .ret 0) ∧
    resolve "./svc/?.so;./lib/?.dll".toList "echo".toList
      = ["./svc/echo.so".toList, "./lib/echo.dll".toList] := by
  constructor
  · have hall : ∀ s ∈ segments path, '?' ∈ s ∧ ld.dlopen (expand name s) = 0 :=
      fun s hs => ⟨hwf s hs, hfail _ (List.mem_map_of_mem _ hs)⟩
    rw [try_open_eq_walk ld path name h0 h0n, walk_all_fail ld name _ [] hall]
    simp [opens, resolve]
  · decide

/-- C6 at the template `./svc/?.so;./lib/?.dll` and the name `echo`. -/
theorem try_open_candidates_witness :
    _try_open loaderNone "./svc/?.so;./lib/?.dll".toList "echo".toList
      = ((resolve "./svc/?.so;./lib/?.dll".toList "echo".toList).map Event.dlopen, .ret 0) ∧
    resolve "./svc/?.so;./lib/?.dll".toList "echo".toList
      = ["./svc/echo.so".toList, "./lib/echo.dll".toList] :=
  try_open_candidates loaderNone "./svc/?.so;./lib/?.dll".toList "echo".toList
    (by decide) (by decide) (by decide) (by decide)

/-- C7. Loader order of `_try_open`: for a template whose non-empty segments
all contain `'?'`, the paths opened are an initial part of the candidate list,
in its order; every opened path but the last failed to open; a non-`NULL`
result is the handle of the last opened path, so nothing after the first
success is tried; on a `NULL` result every candidate was tried; and the result
is `NULL` exactly when every candidate fails to open or the template has no
non-empty segment. -/
theorem try_open_order (ld : Loader) (path name : List Char)
    (hwf : wellFormed path) (h0 : '\x00' ∉ path) (h0n : '\x00' ∉ name) :
    ∃ (att : List (List Char)) (dl : Nat),
      _try_open ld path name = (att.map Event.dlopen, .ret dl) ∧
      att <+: resolve path name ∧
      (∀ c ∈ att.dropLast, ld.dlopen c = 0) ∧
      (dl ≠ 0 → ∃ c, att.getLast? = some c ∧ ld.dlopen c = dl) ∧
      (dl = 0 → att = resolve path name) ∧
      (dl = 0 ↔ ((∀ c ∈ resolve path name, ld.dlopen c = 0) ∨ segments path = [])) := by
  obtain ⟨att, dl, hw, hp, hfail, hlast, hall, hiff⟩ :=
    walk_wellFormed ld name (segments path) [] hwf
  refine ⟨att, dl, ?_, hp, hfail, hlast, hall, ?_⟩
  · rw [try_open_eq_walk ld path name h0 h0n, hw]
    simp
  · rw [hiff]
    constructor
    · intro h; exact Or.inl h
    · intro h
      rcases h with h | h
      · exact h
      · intro c hc
        rw [h] at hc
        simp at hc

/-- C7 at the template `./svc/?.so;./lib/?.dll` with a loader that opens every path. -/
theorem try_open_order_witness :
    ∃ (att : List (List Char)) (dl : Nat),
      _try_open loaderAll "./svc/?.so;./lib/?.dll".toList "echo".toList
        = (att.map Event.dlopen, .ret dl) ∧
      att <+: resolve "./svc/?.so;./lib/?.dll".toList "echo".toList ∧
      (∀ c ∈ att.dropLast, loaderAll.dlopen c = 0) ∧
      (dl ≠ 0 → ∃ c, att.getLast? = some c ∧ loaderAll.dlopen c = dl) ∧
      (dl = 0 → att = resolve "./svc/?.so;./lib/?.dll".toList "echo".toList) ∧
      (dl = 0 ↔ ((∀ c ∈ resolve "./svc/?.so;./lib/?.dll".toList "echo".toList,
        loaderAll.dlopen c = 0) ∨ segments "./svc/?.so;./lib/?.dll".toList = [])) :=
  try_open_order loaderAll "./svc/?.so;./lib/?.dll".toList "echo".toList
    (by decide) (by decide) (by decide)

/-- C8, as stated, fails: the template `./svc/?.so;./svc/` has a segment
without `'?'`, yet `_try_open` opens `./svc/echo.so` first; when that opens the
call returns its handle, and when it fails the fatal exit comes after one open. -/
theorem try_open_malformed_counterexample :
    (∃ seg ∈ segments "./svc/?.so;./svc/".toList, '?' ∉ seg) ∧
    _try_open loaderAll "./svc/?.so;./svc/".toList "echo".toList
      = ([Event.dlopen "./svc/echo.so".toList], .ret 7) ∧
    _try_open loaderNone "./svc/?.so;./svc/".toList "echo".toList
      = ([Event.dlopen "./svc/echo.so".toList], .exit) := by
  decide

/-- C8, amended. A segment without `'?'` is rejected when `_try_open` reaches
it: with `bad` the first such segment, if the candidates of all segments before
it fail to open the call ends in the fatal exit after exactly those opens, none
of them for `bad`, so after no open at all when `bad` is the first non-empty
segment; if one of them opens, the call opens the candidates up to the first
that opens and no other, returns the handle of that candidate, and `bad` is
never examined; so the fatal exit happens exactly when all those candidates
fail. -/
theorem try_open_malformed_segment (ld : Loader) (path name : List Char)
    (pre post : List (List Char)) (bad : List Char)
    (h0 : '\x00' ∉ path) (h0n : '\x00' ∉ name)
    (hsegs : segments path = pre ++ bad :: post)
    (hpre : ∀ s ∈ pre, '?' ∈ s) (hbad : '?' ∉ bad) :
    ((∀ s ∈ pre, ld.dlopen (expand name s) = 0) →
      _try_open ld path name = (opens name pre, .exit)) ∧
    (pre = [] → _try_open ld path name = ([], .exit)) ∧
    (∀ (a : List (List Char)) (s : List Char) (b : List (List Char)), pre = a ++ s :: b →
      (∀ t ∈ a, ld.dlopen (expand name t) = 0) → ld.dlopen (expand name s) ≠ 0 →
      _try_open ld path name = (opens name (a ++ [s]), .ret (ld.dlopen (expand name s)))) ∧
    ((∃ s ∈ pre, ld.dlopen (expand name s) ≠ 0) →
      ∃ (a : List (List Char)) (s : List Char) (b : List (List Char)), pre = a ++ s :: b ∧
        (∀ t ∈ a, ld.dlopen (expand name t) = 0) ∧ ld.dlopen (expand name s) ≠ 0 ∧
        _try_open ld path name = (opens name (a ++ [s]), .ret (ld.dlopen (expand name s)))) ∧
    ((_try_open ld path name).2 = .exit ↔ ∀ s ∈ pre, ld.dlopen (expand name s) = 0) := by
  have hopen : ∀ (a : List (List Char)) (s : List Char) (b : List (List Char)),
      pre = a ++ s :: b → (∀ t ∈ a, ld.dlopen (expand name t) = 0) →
      ld.dlopen (expand name s) ≠ 0 →
      _try_open ld path name = (opens name (a ++ [s]), .ret (ld.dlopen (expand name s))) := by
    intro a s b hsplit ha hs
    have hq : ∀ t ∈ a, '?' ∈ t ∧ ld.dlopen (expand name t) = 0 :=
      fun t ht => ⟨hpre t (by rw [hsplit]; exact List.mem_append_left _ ht), ha t ht⟩
    have hsq : '?' ∈ s := hpre s (by rw [hsplit]; simp)
    have e : pre ++ bad :: post = a ++ s :: (b ++ bad :: post) := by
      rw [hsplit]; simp
    rw [try_open_eq_walk ld path name h0 h0n, hsegs, e,
      walk_first_open ld name a _ s [] hq hsq hs]
    simp
  have hexit : (∀ s ∈ pre, ld.dlopen (expand name s) = 0) →
      _try_open ld path name = (opens name pre, .exit) := by
    intro hall
    rw [try_open_eq_walk ld path name h0 h0n, hsegs,
      walk_malformed ld name pre post bad [] (fun s hs => ⟨hpre s hs, hall s hs⟩) hbad]
    simp
  refine ⟨hexit, ?_, hopen, ?_, ?_⟩
  · intro he
    subst he
    rw [try_open_eq_walk ld path name h0 h0n, hsegs, List.nil_append, walk, if_neg hbad]
  · intro hex
    obtain ⟨a, s, b, hsplit, ha, hs⟩ := first_open_split ld name pre hex
    exact ⟨a, s, b, hsplit, ha, hs, hopen a s b hsplit ha hs⟩
  · constructor
    · intro hx
      by_contra hne
      have hex : ∃ s ∈ pre, ld.dlopen (expand name s) ≠ 0 := by
        by_contra hno
        apply hne
        intro s hs
        by_contra hd
        exact hno ⟨s, hs, hd⟩
      obtain ⟨a, s, b, hsplit, ha, hs⟩ := first_open_split ld name pre hex
      rw [hopen a s b hsplit ha hs] at hx
      simp at hx
    · intro hall
      rw [hexit hall]

/-- C8, amended, at the template `./svc/?.so;./svc/`: the fatal exit after one
open with a loader that opens nothing, and the handle of `./svc/echo.so` with a
loader that opens every path. -/
theorem try_open_malformed_segment_witness :
    _try_open loaderNone "./svc/?.so;./svc/".toList "echo".toList
      = (opens "echo".toList ["./svc/?.so".toList], .exit) ∧
    _try_open loaderAll "./svc/?.so;./svc/".toList "echo".toList
      = (opens "echo".toList ([] ++ ["./svc/?.so".toList]),
          .ret (loaderAll.dlopen (expand "echo".toList "./svc/?.so".toList))) :=
  ⟨(try_open_malformed_segment loaderNone "./svc/?.so;./svc/".toList "echo".toList
      ["./svc/?.so".toList] [] "./svc/".toList
      (by decide) (by decide) (by decide) (by decide) (by decide)).1 (by decide),
    (try_open_malformed_segment loaderAll "./svc/?.so;./svc/".toList "echo".toList
      ["./svc/?.so".toList] [] "./svc/".toList
      (by decide) (by decide) (by decide) (by decide) (by decide)).2.2.1
      [] "./svc/?.so".toList [] (by decide) (by decide) (by decide)⟩

/-- C9, as stated, fails: the segment `./svc/??.so` has two `'?'`, and
`_try_open` does not exit: it offers the opener the candidate `./svc/echo?.so`
and returns the handle it gets. -/
theorem try_open_two_wildcards_counterexample :
    "./svc/??.so".toList.count '?' = 2 ∧
    segments "./svc/??.so".toList = ["./svc/??.so".toList] ∧
    _try_open loaderAll "./svc/??.so".toList "echo".toList
      = ([Event.dlopen "./svc/echo?.so".toList], .ret 7) := by
  decide

/-- C9, amended. At least one wildcard per segment is required, not exactly
one: when `_try_open` reaches a segment with two or more `'?'` it does not
exit; the segment is `a ++ '?' :: b` with no `'?'` in `a` and one in `b`, and
the candidate `a ++ name ++ b` is offered to the opener after the candidates of
the segments before it. When it opens, its handle is returned. When it fails to
open, the call goes on with the segments after it: it returns `NULL` after all
their candidates when they all fail, the handle of the first of them that
opens, and ends in the fatal exit when it reaches one without `'?'`. The fatal
exit happens only at a segment with no `'?'`, reached after the candidates of
all segments before it failed. -/
theorem try_open_two_wildcards (ld : Loader) (path name : List Char)
    (pre post : List (List Char)) (seg : List Char)
    (h0 : '\x00' ∉ path) (h0n : '\x00' ∉ name)
    (hsegs : segments path = pre ++ seg :: post)
    (hpre : ∀ s ∈ pre, '?' ∈ s ∧ ld.dlopen (expand name s) = 0)
    (htwo : 2 ≤ seg.count '?') :
    ∃ (a b : List Char), seg = a ++ '?' :: b ∧ '?' ∉ a ∧ '?' ∈ b ∧
      (∃ (rest : List Event) (out : Outcome Nat),
        _try_open ld path name
          = (opens name pre ++ Event.dlopen (a ++ name ++ b) :: rest, out)) ∧
      (ld.dlopen (a ++ name ++ b) ≠ 0 →
        _try_open ld path name
          = (opens name pre ++ [Event.dlopen (a ++ name ++ b)],
              .ret (ld.dlopen (a ++ name ++ b)))) ∧
      (ld.dlopen (a ++ name ++ b) = 0 →
        (∀ t ∈ post, '?' ∈ t ∧ ld.dlopen (expand name t) = 0) →
        _try_open ld path name
          = (opens name pre ++ Event.dlopen (a ++ name ++ b) :: opens name post, .ret 0)) ∧
      (ld.dlopen (a ++ name ++ b) = 0 →
        ∀ (p1 : List (List Char)) (s : List Char) (p2 : List (List Char)),
          post = p1 ++ s :: p2 → (∀ t ∈ p1, '?' ∈ t ∧ ld.dlopen (expand name t) = 0) →
          '?' ∈ s → ld.dlopen (expand name s) ≠ 0 →
          _try_open ld path name
            = (opens name pre ++ Event.dlopen (a ++ name ++ b) :: opens name (p1 ++ [s]),
                .ret (ld.dlopen (expand name s)))) ∧
      (ld.dlopen (a ++ name ++ b) = 0 →
        ∀ (p1 : List (List Char)) (bad : List Char) (p2 : List (List Char)),
          post = p1 ++ bad :: p2 → (∀ t ∈ p1, '?' ∈ t ∧ ld.dlopen (expand name t) = 0) →
          '?' ∉ bad →
          _try_open ld path name
            = (opens name pre ++ Event.dlopen (a ++ name ++ b) :: opens name p1, .exit)) ∧
      ((_try_open ld path name).2 = .exit ↔
        ∃ (p1 : List (List Char)) (bad : List Char) (p2 : List (List Char)),
          segments path = p1 ++ bad :: p2 ∧
          (∀ t ∈ p1, '?' ∈ t ∧ ld.dlopen (expand name t) = 0) ∧ '?' ∉ bad) := by
  have hseg : '?' ∈ seg := by
    have : 0 < seg.count '?' := by omega
    exact List.count_pos_iff.mp this
  have hsp := seg_split seg hseg
  have hna : '?' ∉ seg.takeWhile (· ≠ '?') := not_mem_takeWhile_ne '?' seg
  have hb : '?' ∈ (seg.dropWhile (· ≠ '?')).drop 1 := by
    have hc : seg.count '?'
        = (seg.takeWhile (· ≠ '?')).count '?'
          + ('?' :: (seg.dropWhile (· ≠ '?')).drop 1).count '?' := by
      rw [← List.count_append, ← hsp]
    rw [List.count_eq_zero_of_not_mem hna, List.count_cons_self] at hc
    have : 0 < ((seg.dropWhile (· ≠ '?')).drop 1).count '?' := by omega
    exact List.count_pos_iff.mp this
  have hexp : expand name seg
      = seg.takeWhile (· ≠ '?') ++ name ++ (seg.dropWhile (· ≠ '?')).drop 1 := rfl
  have hpre2 : ld.dlopen (expand name seg) = 0 →
      ∀ (p1 : List (List Char)), (∀ t ∈ p1, '?' ∈ t ∧ ld.dlopen (expand name t) = 0) →
      ∀ t ∈ pre ++ seg :: p1, '?' ∈ t ∧ ld.dlopen (expand name t) = 0 := by
    intro hd p1 hp1 t ht
    rcases List.mem_append.mp ht with e | e
    · exact hpre t e
    · rcases List.mem_cons.mp e with e | e
      · rw [e]; exact ⟨hseg, hd⟩
      · exact hp1 t e
  refine ⟨_, _, hsp, hna, hb, ?_, ?_, ?_, ?_, ?_, ?_⟩
  · rw [try_open_eq_walk ld path name h0 h0n, hsegs, walk_append ld name pre _ [] hpre, ← hexp]
    obtain ⟨rest, out, hw⟩ := walk_reaches ld name seg post ([] ++ opens name pre) hseg
    exact ⟨rest, out, by rw [hw]; simp⟩
  · intro hd
    rw [← hexp] at hd ⊢
    rw [try_open_eq_walk ld path name h0 h0n, hsegs,
      walk_first_open ld name pre post seg [] hpre hseg hd]
    simp [opens]
  · intro hd hall
    rw [← hexp] at hd ⊢
    rw [try_open_eq_walk ld path name h0 h0n, hsegs,
      walk_all_fail ld name _ [] (hpre2 hd post hall)]
    simp [opens]
  · intro hd p1 s p2 hpost hp1 hs hsd
    rw [← hexp] at hd ⊢
    have e : pre ++ seg :: post = (pre ++ seg :: p1) ++ s :: p2 := by
      rw [hpost]; simp
    rw [try_open_eq_walk ld path name h0 h0n, hsegs, e,
      walk_first_open ld name _ p2 s [] (hpre2 hd p1 hp1) hs hsd]
    simp [opens]
  · intro hd p1 bad p2 hpost hp1 hbad
    rw [← hexp] at hd ⊢
    have e : pre ++ seg :: post = (pre ++ seg :: p1) ++ bad :: p2 := by
      rw [hpost]; simp
    rw [try_open_eq_walk ld path name h0 h0n, hsegs, e,
      walk_malformed ld name _ p2 bad [] (hpre2 hd p1 hp1) hbad]
    simp [opens]
  · rw [try_open_eq_walk ld path name h0 h0n]
    exact walk_exit_iff ld name (segments path) []

/-- C9, amended, at the template `./svc/??.so;./lib/?.dll` with a loader that
opens nothing: `./svc/echo?.so` is tried, then `./lib/echo.dll`. -/
theorem try_open_two_wildcards_witness :
    ∃ (a b : List Char), "./svc/??.so".toList = a ++ '?' :: b ∧ '?' ∉ a ∧ '?' ∈ b ∧
      (∃ (rest : List Event) (out : Outcome Nat),
        _try_open loaderNone "./svc/??.so;./lib/?.dll".toList "echo".toList
          = (opens "echo".toList [] ++ Event.dlopen (a ++ "echo".toList ++ b) :: rest, out)) ∧
      (loaderNone.dlopen (a ++ "echo".toList ++ b) ≠ 0 →
        _try_open loaderNone "./svc/??.so;./lib/?.dll".toList "echo".toList
          = (opens "echo".toList [] ++ [Event.dlopen (a ++ "echo".toList ++ b)],
              .ret (loaderNone.dlopen (a ++ "echo".toList ++ b)))) ∧
      (loaderNone.dlopen (a ++ "echo".toList ++ b) = 0 →
        (∀ t ∈ ["./lib/?.dll".toList], '?' ∈ t ∧ loaderNone.dlopen (expand "echo".toList t) = 0) →
        _try_open loaderNone "./svc/??.so;./lib/?.dll".toList "echo".toList
          = (opens "echo".toList [] ++ Event.dlopen (a ++ "echo".toList ++ b) :: opens "echo".toList ["./lib/?.dll".toList], .ret 0)) ∧
      (loaderNone.dlopen (a ++ "echo".toList ++ b) = 0 →
        ∀ (p1 : List (List Char)) (s : List Char) (p2 : List (List Char)),
          ["./lib/?.dll".toList] = p1 ++ s :: p2 → (∀ t ∈ p1, '?' ∈ t ∧ loaderNone.dlopen (expand "echo".toList t) = 0) →
          '?' ∈ s → loaderNone.dlopen (expand "echo".toList s) ≠ 0 →
          _try_open loaderNone "./svc/??.so;./lib/?.dll".toList "echo".toList
            = (opens "echo".toList [] ++ Event.dlopen (a ++ "echo".toList ++ b) :: opens "echo".toList (p1 ++ [s]),
                .ret (loaderNone.dlopen (expand "echo".toList s)))) ∧
      (loaderNone.dlopen (a ++ "echo".toList ++ b) = 0 →
        ∀ (p1 : List (List Char)) (bad : List Char) (p2 : List (List Char)),
          ["./lib/?.dll".toList] = p1 ++ bad :: p2 → (∀ t ∈ p1, '?' ∈ t ∧ loaderNone.dlopen (expand "echo".toList t) = 0) →
          '?' ∉ bad →
          _try_open loaderNone "./svc/??.so;./lib/?.dll".toList "echo".toList
            = (opens "echo".toList [] ++ Event.dlopen (a ++ "echo".toList ++ b) :: opens "echo".toList p1, .exit)) ∧
      ((_try_open loaderNone "./svc/??.so;./lib/?.dll".toList "echo".toList).2 = .exit ↔
        ∃ (p1 : List (List Char)) (bad : List Char) (p2 : List (List Char)),
          segments "./svc/??.so;./lib/?.dll".toList = p1 ++ bad :: p2 ∧
          (∀ t ∈ p1, '?' ∈ t ∧ loaderNone.dlopen (expand "echo".toList t) = 0) ∧ '?' ∉ bad) :=
  try_open_two_wildcards loaderNone "./svc/??.so;./lib/?.dll".toList "echo".toList
    [] ["./lib/?.dll".toList] "./svc/??.so".toList
    (by decide) (by decide) (by decide) (by decide) (by decide)

/-- C10, as stated, fails: `skynet_module_init` checks nothing. For the template
`./svc/?.so;./svc/`, which has a segment without `'?'`, it gives a registry with
`count = 0` and that template, and the registry is usable: a call for `echo`
with a loader that opens `./svc/echo.so` registers the module at index 0. -/
theorem skynet_module_init_counterexample :
    (∃ seg ∈ segments "./svc/?.so;./svc/".toList, '?' ∉ seg) ∧
    (skynet_module_init registryEcho "./svc/?.so;./svc/".toList).count = 0 ∧
    (skynet_module_init registryEcho "./svc/?.so;./svc/".toList).path
      = "./svc/?.so;./svc/".toList ∧
    ∃ M', skynet_module_query loaderAll
        (skynet_module_init registryEcho "./svc/?.so;./svc/".toList) "echo".toList
      = ([Event.dlopen "./svc/echo.so".toList] ++ lookups "echo".toList 7,
          .ret (some 0, M')) ∧ M'.count = 1 :=
  ⟨by decide, rfl, rfl, _,
    query_success_eq loaderAll (skynet_module_init registryEcho "./svc/?.so;./svc/".toList)
      "echo".toList [Event.dlopen "./svc/echo.so".toList] 7
      (by decide) (by decide) (by decide) (by decide) (by decide), rfl⟩

/-- C10, amended. `skynet_module_init` never fails and checks nothing: for every
template, well-formed or not, it gives a registry with `count = 0` whose path is
the template, the slots being what the allocated block held. A segment without
`'?'` is detected by a later `skynet_module_query`: when the first non-empty
segment has no `'?'`, the call for any name on the fresh registry ends in the
fatal exit before any open. -/
theorem skynet_module_init_no_check (blk : modules) (path : List Char) :
    (skynet_module_init blk path).count = 0 ∧
    (skynet_module_init blk path).path = path ∧
    (skynet_module_init blk path).m = blk.m ∧
    ∀ (ld : Loader) (name bad : List Char) (post : List (List Char)),
      '\x00' ∉ path → '\x00' ∉ name → segments path = bad :: post → '?' ∉ bad →
      skynet_module_query ld (skynet_module_init blk path) name = ([], .exit) := by
  refine ⟨rfl, rfl, rfl, ?_⟩
  intro ld name bad post h0 h0n hsegs hbad
  have ht : _try_open ld (skynet_module_init blk path).path name = ([], .exit) := by
    show _try_open ld path name = ([], .exit)
    rw [try_open_eq_walk ld path name h0 h0n, hsegs, walk, if_neg hbad]
  exact query_exit_eq ld _ name [] (by simp [_query, skynet_module_init])
    (by simp [skynet_module_init, MAX_MODULE_TYPE]) ht

/-- C10, amended, at the template `./svc/;./svc/?.so`. -/
theorem skynet_module_init_no_check_witness :
    (skynet_module_init registryEcho "./svc/;./svc/?.so".toList).count = 0 ∧
    (skynet_module_init registryEcho "./svc/;./svc/?.so".toList).path
      = "./svc/;./svc/?.so".toList ∧
    (skynet_module_init registryEcho "./svc/;./svc/?.so".toList).m = registryEcho.m ∧
    skynet_module_query loaderAll (skynet_module_init registryEcho "./svc/;./svc/?.so".toList)
      "echo".toList = ([], .exit) :=
  have h := skynet_module_init_no_check registryEcho "./svc/;./svc/?.so".toList
  ⟨h.1, h.2.1, h.2.2.1,
    h.2.2.2 loaderAll "echo".toList "./svc/".toList ["./svc/?.so".toList]
      (by decide) (by decide) (by decide) (by decide)⟩

/-- C11. Symbol naming of `get_api`: for each of the four suffixes `_create`,
`_init`, `_release`, `_signal`, the symbol looked up in the library of the
record is the name followed by the suffix when the name has no `'.'`, and the
part of the name after its last `'.'` followed by the suffix otherwise; for a
name that ends in `'.'` it is the suffix alone. -/
theorem get_api_symbol (ld : Loader) (mod : skynet_module) (suffix : List Char)
    (hs : suffix ∈ ["_create".toList, "_init".toList, "_release".toList, "_signal".toList]) :
    ('.' ∉ mod.name →
      get_api ld mod suffix
        = (Event.dlsym mod.module (mod.name ++ suffix),
            ld.dlsym mod.module (mod.name ++ suffix))) ∧
    (∀ (before after : List Char), mod.name = before ++ '.' :: after → '.' ∉ after →
      get_api ld mod suffix
        = (Event.dlsym mod.module (after ++ suffix), ld.dlsym mod.module (after ++ suffix))) ∧
    (∀ (before : List Char), mod.name = before ++ ['.'] →
      get_api ld mod suffix = (Event.dlsym mod.module suffix, ld.dlsym mod.module suffix)) := by
  have ha : '.' ∉ suffix := by
    simp only [List.mem_cons, List.mem_singleton, List.not_mem_nil, or_false] at hs
    rcases hs with e | e | e | e <;> (rw [e]; decide)
  refine ⟨?_, ?_, ?_⟩
  · intro hn
    simp only [get_api, api_symbol_no_dot mod.name suffix hn ha]
  · intro before after hname hn
    simp only [get_api, hname, api_symbol_after_dot before after suffix hn ha]
  · intro before hname
    have := api_symbol_after_dot before [] suffix (by simp) ha
    simp only [get_api, hname, this, List.nil_append]

/-- C11 at the record `lib.sub.echo` and the suffix `_init`: the symbol is
`echo_init`. -/
theorem get_api_symbol_witness :
    get_api loaderAll recordFull "_init".toList
      = (Event.dlsym recordFull.module ("echo".toList ++ "_init".toList),
          loaderAll.dlsym recordFull.module ("echo".toList ++ "_init".toList)) :=
  (get_api_symbol loaderAll recordFull "_init".toList (by decide)).2.1
    "lib.sub".toList "echo".toList (by decide) (by decide)

/-- C12. Binding of `open_sym`: the call returns 0 exactly when the init symbol
resolves, whatever the lookups of create, release and signal give, and returns
1 otherwise; each of the four entry-point fields of the record is the result of
the lookup of its own symbol, `NULL` when the lookup finds nothing; the name and
the handle of the record are kept, and the four lookups are made in the order
create, init, release, signal. -/
theorem open_sym_binding (ld : Loader) (mod : skynet_module) :
    ((open_sym ld mod).2.2 = 0 ↔
      ld.dlsym mod.module (api_symbol mod.name "_init".toList) ≠ 0) ∧
    ((open_sym ld mod).2.2 = 1 ↔
      ld.dlsym mod.module (api_symbol mod.name "_init".toList) = 0) ∧
    (open_sym ld mod).2.1.create
      = ld.dlsym mod.module (api_symbol mod.name "_create".toList) ∧
    (open_sym ld mod).2.1.init
      = ld.dlsym mod.module (api_symbol mod.name "_init".toList) ∧
    (open_sym ld mod).2.1.release
      = ld.dlsym mod.module (api_symbol mod.name "_release".toList) ∧
    (open_sym ld mod).2.1.signal
      = ld.dlsym mod.module (api_symbol mod.name "_signal".toList) ∧
    (open_sym ld mod).2.1.name = mod.name ∧
    (open_sym ld mod).2.1.module = mod.module ∧
    (open_sym ld mod).1
      = [Event.dlsym mod.module (api_symbol mod.name "_create".toList),
         Event.dlsym mod.module (api_symbol mod.name "_init".toList),
         Event.dlsym mod.module (api_symbol mod.name "_release".toList),
         Event.dlsym mod.module (api_symbol mod.name "_signal".toList)] := by
  rw [open_sym_eq]
  refine ⟨?_, ?_, rfl, rfl, rfl, rfl, rfl, rfl, rfl⟩
  · by_cases h : ld.dlsym mod.module (api_symbol mod.name "_init".toList) = 0
    · simp [h]
    · simp [h]
  · by_cases h : ld.dlsym mod.module (api_symbol mod.name "_init".toList) = 0
    · simp [h]
    · simp [h]

/-- C13. Init-present invariant: in every registry state reached from
`skynet_module_init` by calls of `skynet_module_query`, with any names and
loaders, every record below `count` has a non-`NULL` init entry point; so for
a record that a call from such a state returns, `skynet_module_instance_init`
calls that entry point once with the given instance, context and parameter and
returns the status it gives. -/
theorem init_present (M : modules) (h : Reachable M) :
    (∀ i, i < M.count → (M.m i).init ≠ 0) ∧
    ∀ (ld : Loader) (name : List Char) (tr : List Event) (i : Nat) (M' : modules)
      (code : Code) (inst ctx : Nat) (parm : Option (List Char)),
      skynet_module_query ld M name = (tr, .ret (some i, M')) →
      (M'.m i).init ≠ 0 ∧
      skynet_module_instance_init code (M'.m i) inst ctx parm
        = ([Call.init (M'.m i).init inst ctx parm],
            .ret (code.init (M'.m i).init inst ctx parm)) := by
  obtain ⟨blk, path, hl⟩ := h
  have hinv : ∀ i, i < M.count → (M.m i).init ≠ 0 :=
    later_invariant (fun M => ∀ i, i < M.count → (M.m i).init ≠ 0)
      (fun ld M M' name tr r hP hq => init_present_step ld M M' name tr r hP hq)
      _ M hl (fun i hi => absurd hi (by simp [skynet_module_init]))
  refine ⟨hinv, ?_⟩
  intro ld name tr i M' code inst ctx parm hq
  have hpub := query_result_published ld M M' name tr i hq
  have hinit := init_present_step ld M M' name tr (some i) hinv hq i hpub.1
  exact ⟨hinit, by simp [skynet_module_instance_init, hinit]⟩

/-- C13 at a fresh registry and a call for `echo` that loads it. -/
theorem init_present_witness :
    (∀ i, i < (skynet_module_init registryEmpty "./svc/?.so".toList).count →
      ((skynet_module_init registryEmpty "./svc/?.so".toList).m i).init ≠ 0) ∧
    ∃ M', skynet_module_query loaderAll (skynet_module_init registryEmpty "./svc/?.so".toList)
        "echo".toList
        = ([Event.dlopen "./svc/echo.so".toList] ++ lookups "echo".toList 7,
            .ret (some 0, M')) ∧
      (M'.m 0).init ≠ 0 ∧
      skynet_module_instance_init sampleCode (M'.m 0) 1 2 none
        = ([Call.init (M'.m 0).init 1 2 none],
            .ret (sampleCode.init (M'.m 0).init 1 2 none)) :=
  have h := init_present (skynet_module_init registryEmpty "./svc/?.so".toList)
    ⟨registryEmpty, "./svc/?.so".toList, Later.refl _⟩
  have hq := query_success_eq loaderAll (skynet_module_init registryEmpty "./svc/?.so".toList)
    "echo".toList [Event.dlopen "./svc/echo.so".toList] 7
    (by decide) (by decide) (by decide) (by decide) (by decide)
  ⟨h.1, _, hq, h.2 loaderAll "echo".toList _ 0 _ sampleCode 1 2 none hq⟩

/-- C14. Name-uniqueness invariant: in every registry state reached from
`skynet_module_init` by calls of `skynet_module_query` in sequence, with any
names and loaders, two records at distinct indices below `count` have distinct
names. -/
theorem unique_names (M : modules) (h : Reachable M) :
    ∀ i j, i < M.count → j < M.count → i ≠ j → (M.m i).name ≠ (M.m j).name := by
  obtain ⟨blk, path, hl⟩ := h
  have hinv : ∀ i j, i < M.count → j < M.count → (M.m i).name = (M.m j).name → i = j :=
    later_invariant
      (fun M => ∀ i j, i < M.count → j < M.count → (M.m i).name = (M.m j).name → i = j)
      (fun ld M M' name tr r hP hq => unique_names_step ld M M' name tr r hP hq)
      _ M hl (fun i j hi => absurd hi (by simp [skynet_module_init]))
  intro i j hi hj hne e
  exact hne (hinv i j hi hj e)

/-- C14 at the registry reached by loading `echo` and then `ping`. -/
theorem unique_names_witness :
    ∃ M : modules, M.count = 2 ∧
      ∀ i j, i < M.count → j < M.count → i ≠ j → (M.m i).name ≠ (M.m j).name :=
  have h1 := query_success_eq loaderAll (skynet_module_init registryEmpty "./svc/?.so".toList)
    "echo".toList [Event.dlopen "./svc/echo.so".toList] 7
    (by decide) (by decide) (by decide) (by decide) (by decide)
  have h2 := query_success_eq loaderAll _
    "ping".toList [Event.dlopen "./svc/ping.so".toList] 7
    (by decide) (by decide) (by decide) (by decide) (by decide)
  ⟨_, rfl, unique_names _ ⟨registryEmpty, "./svc/?.so".toList,
    Later.step loaderAll "ping".toList _ _
      (Later.step loaderAll "echo".toList _ _ (Later.refl _) h1) h2⟩⟩

/-- C15. Append-only stability: after a call of `skynet_module_query` that
returns, `count` is unchanged or larger by exactly 1, and every record below
the old `count` is at the same index with the same name, handle and entry
points; so after any later sequence of calls every record published now is
unchanged, and the record a call returned is still published and unchanged. -/
theorem append_only (ld : Loader) (M M' : modules) (name : List Char) (tr : List Event)
    (r : Option Nat) (h : skynet_module_query ld M name = (tr, .ret (r, M'))) :
    (M'.count = M.count ∨ M'.count = M.count + 1) ∧
    (∀ i, i < M.count → M'.m i = M.m i) ∧
    (∀ (M2 : modules), Later M' M2 → ∀ i, i < M'.count → M2.m i = M'.m i) ∧
    (∀ (M2 : modules) (i : Nat), r = some i → Later M' M2 →
      i < M2.count ∧ M2.m i = M'.m i) := by
  obtain ⟨_, hc, hm, _⟩ := query_step_frame ld M M' name tr r h
  refine ⟨hc, hm, ?_, ?_⟩
  · intro M2 hl i hi
    exact (later_trans_step M' M2 hl).2.2 i hi
  · intro M2 i hr hl
    subst hr
    have hpub := query_result_published ld M M' name tr i h
    have hlater := later_trans_step M' M2 hl
    exact ⟨by omega, hlater.2.2 i hpub.1⟩

/-- C15 at the call that loads `echo` into a fresh registry, followed by a call
that loads `ping`. -/
theorem append_only_witness :
    ∃ M1 M2 : modules,
      skynet_module_query loaderAll (skynet_module_init registryEmpty "./svc/?.so".toList)
        "echo".toList
        = ([Event.dlopen "./svc/echo.so".toList] ++ lookups "echo".toList 7,
            .ret (some 0, M1)) ∧
      M2.count = 2 ∧ 0 < M2.count ∧ M2.m 0 = M1.m 0 :=
  have h1 := query_success_eq loaderAll (skynet_module_init registryEmpty "./svc/?.so".toList)
    "echo".toList [Event.dlopen "./svc/echo.so".toList] 7
    (by decide) (by decide) (by decide) (by decide) (by decide)
  have h2 := query_success_eq loaderAll _
    "ping".toList [Event.dlopen "./svc/ping.so".toList] 7
    (by decide) (by decide) (by decide) (by decide) (by decide)
  have h := (append_only loaderAll _ _ "echo".toList _ (some 0) h1).2.2.2 _ 0 rfl
    (Later.step loaderAll "ping".toList _ _ (Later.refl _) h2)
  ⟨_, _, h1, rfl, h.1, h.2⟩

/-- C16. Lifecycle create, `skynet_module_instance_create`: when the create
entry point of the record is present it is called once and the result is what
it returns; when it is absent nothing is called and the result is the pointer
with all its `w` bits set, `2^w - 1`, the value of `(intptr_t)-1`; the other
fields of the record play no part. -/
theorem instance_create (w : Nat) (code : Code) (m : skynet_module) :
    (m.create ≠ 0 →
      skynet_module_instance_create w code m = ([Call.create m.create], code.create m.create)) ∧
    (m.create = 0 → skynet_module_instance_create w code m = ([], 2 ^ w - 1)) ∧
    (∀ k, k < w → (2 ^ w - 1).testBit k = true) ∧
    ((-1 : Int) % (2 : Int) ^ w = ((2 ^ w - 1 : Nat) : Int)) := by
  refine ⟨?_, ?_, ?_, ?_⟩
  · intro h
    simp [skynet_module_instance_create, h]
  · intro h
    simp [skynet_module_instance_create, h, no_instance_eq]
  · intro k hk
    rw [Nat.testBit_two_pow_sub_one]
    simpa using hk
  · have h := no_instance_eq w
    have hnn : (0 : Int) ≤ (-1 : Int) % (2 : Int) ^ w :=
      Int.emod_nonneg _ (by positivity)
    have e : no_instance w = ((-1 : Int) % (2 : Int) ^ w).toNat := rfl
    rw [e] at h
    rw [← h, Int.toNat_of_nonneg hnn]

/-- C16 with 64-bit pointers, at a record with a create entry point and at one
without. -/
theorem instance_create_witness :
    skynet_module_instance_create 64 sampleCode recordFull
      = ([Call.create recordFull.create], sampleCode.create recordFull.create) ∧
    skynet_module_instance_create 64 sampleCode recordInitOnly = ([], 2 ^ 64 - 1) :=
  ⟨(instance_create 64 sampleCode recordFull).1 (by decide),
    (instance_create 64 sampleCode recordInitOnly).2.1 (by decide)⟩

/-- C17. Lifecycle release and signal: for every record and every instance
value, the no-instance marker included, `skynet_module_instance_release` calls
the release entry point exactly once with that instance when it is present and
calls nothing when it is absent; `skynet_module_instance_signal` calls the
signal entry point exactly once with that instance and signal value when it is
present and calls nothing when it is absent. -/
theorem instance_release_signal (m : skynet_module) (inst : Nat) (sig : Int) :
    (m.release ≠ 0 → skynet_module_instance_release m inst = [Call.release m.release inst]) ∧
    (m.release = 0 → skynet_module_instance_release m inst = []) ∧
    (m.signal ≠ 0 →
      skynet_module_instance_signal m inst sig = [Call.signal m.signal inst sig]) ∧
    (m.signal = 0 → skynet_module_instance_signal m inst sig = []) := by
  refine ⟨?_, ?_, ?_, ?_⟩
  · intro h; simp [skynet_module_instance_release, h]
  · intro h; simp [skynet_module_instance_release, h]
  · intro h; simp [skynet_module_instance_signal, h]
  · intro h; simp [skynet_module_instance_signal, h]

/-- C17 at the no-instance marker of 64-bit pointers, for a record with all
entry points and for one with init only. -/
theorem instance_release_signal_witness :
    skynet_module_instance_release recordFull (no_instance 64)
      = [Call.release recordFull.release (no_instance 64)] ∧
    skynet_module_instance_release recordInitOnly (no_instance 64) = [] ∧
    skynet_module_instance_signal recordFull (no_instance 64) 3
      = [Call.signal recordFull.signal (no_instance 64) 3] ∧
    skynet_module_instance_signal recordInitOnly (no_instance 64) 3 = [] :=
  ⟨(instance_release_signal recordFull (no_instance 64) 3).1 (by decide),
    (instance_release_signal recordInitOnly (no_instance 64) 3).2.1 (by decide),
    (instance_release_signal recordFull (no_instance 64) 3).2.2.1 (by decide),
    (instance_release_signal recordInitOnly (no_instance 64) 3).2.2.2 (by decide)⟩

/-- C19. Path buffer bound of `_try_open`: for every template and name, the
candidate of every segment with a `'?'` is at most `|template| + |name| - 1`
bytes long; the call never accesses `tmp`, of size `|template| + |name|`, out
of range and every path it passes to the opener is terminated inside `tmp`
(the outcome is never a fault), also when it ends in the fatal exit for a
segment without `'?'`; the loop ends within its iteration budget; and every
path opened obeys the length bound. -/
theorem try_open_buffer_bound (ld : Loader) (path name : List Char)
    (h0 : '\x00' ∉ path) (h0n : '\x00' ∉ name) :
    (∀ seg ∈ segments path, '?' ∈ seg →
      (expand name seg).length + 1 ≤ path.length + name.length) ∧
    (_try_open ld path name).2 ≠ .fault ∧
    (_try_open ld path name).2 ≠ .nofuel ∧
    (∀ p, Event.dlopen p ∈ (_try_open ld path name).1 →
      p.length + 1 ≤ path.length + name.length) := by
  have hb : ∀ seg ∈ segments path, '?' ∈ seg →
      (expand name seg).length + 1 ≤ path.length + name.length := by
    intro seg hseg hq
    have h1 := expand_length name seg hq
    have h2 := segments_length_le path seg hseg
    omega
  rw [try_open_eq_walk ld path name h0 h0n]
  refine ⟨hb, ?_, ?_, ?_⟩
  · rcases walk_outcome ld name (segments path) [] with h | ⟨dl, h⟩ <;> rw [h] <;> simp
  · rcases walk_outcome ld name (segments path) [] with h | ⟨dl, h⟩ <;> rw [h] <;> simp
  · intro p hp
    rcases walk_trace_mem ld name (segments path) [] _ hp with h | ⟨seg, hseg, hq, he⟩
    · simp at h
    · have e : p = expand name seg := by simpa using he
      rw [e]
      exact hb seg hseg hq

/-- C19 at the template `./svc/?.so;./svc/`, whose second segment has no `'?'`,
with a loader that opens nothing. -/
theorem try_open_buffer_bound_witness :
    (∀ seg ∈ segments "./svc/?.so;./svc/".toList, '?' ∈ seg →
      (expand "echo".toList seg).length + 1
        ≤ "./svc/?.so;./svc/".toList.length + "echo".toList.length) ∧
    (_try_open loaderNone "./svc/?.so;./svc/".toList "echo".toList).2 ≠ .fault ∧
    (_try_open loaderNone "./svc/?.so;./svc/".toList "echo".toList).2 ≠ .nofuel ∧
    (∀ p, Event.dlopen p ∈ (_try_open loaderNone "./svc/?.so;./svc/".toList "echo".toList).1 →
      p.length + 1 ≤ "./svc/?.so;./svc/".toList.length + "echo".toList.length) :=
  try_open_buffer_bound loaderNone "./svc/?.so;./svc/".toList "echo".toList
    (by decide) (by decide)

/-- C20. Count bound: in every registry state reached from `skynet_module_init`
by calls of `skynet_module_query`, with any names and loaders, `count` is at
most 32 (and at least 0, being a natural number that is only set to 0 and
incremented); and a call from such a state leaves `count` at most 32, returns
only an index below 32, and changes no slot but one of index below 32. -/
theorem count_bound (M : modules) (h : Reachable M) :
    M.count ≤ 32 ∧
    ∀ (ld : Loader) (name : List Char) (tr : List Event) (r : Option Nat) (M' : modules),
      skynet_module_query ld M name = (tr, .ret (r, M')) →
      M'.count ≤ 32 ∧ (∀ i, r = some i → i < 32) ∧ (∀ j, M'.m j ≠ M.m j → j < 32) := by
  obtain ⟨blk, path, hl⟩ := h
  have hmax : MAX_MODULE_TYPE = 32 := rfl
  have hinv : M.count ≤ MAX_MODULE_TYPE :=
    later_invariant (fun M => M.count ≤ MAX_MODULE_TYPE)
      (fun ld M M' name tr r hP hq => count_bound_step ld M M' name tr r hP hq)
      _ M hl (by simp [skynet_module_init])
  refine ⟨hmax ▸ hinv, ?_⟩
  intro ld name tr r M' hq
  have hc' := count_bound_step ld M M' name tr r hinv hq
  rw [hmax] at hc'
  refine ⟨hc', ?_, ?_⟩
  · intro i hr
    subst hr
    have := (query_result_published ld M M' name tr i hq).1
    omega
  · intro j hj
    have := (query_step_frame ld M M' name tr r hq).2.2.2 j hj
    rw [hmax] at this
    omega

/-- C20 at a fresh registry and a call for `echo` that loads it. -/
theorem count_bound_witness :
    (skynet_module_init registryEmpty "./svc/?.so".toList).count ≤ 32 ∧
    ∃ M', skynet_module_query loaderAll (skynet_module_init registryEmpty "./svc/?.so".toList)
        "echo".toList
        = ([Event.dlopen "./svc/echo.so".toList] ++ lookups "echo".toList 7,
            .ret (some 0, M')) ∧
      M'.count ≤ 32 ∧ (∀ i, some 0 = some i → i < 32) ∧
      (∀ j, M'.m j ≠ (skynet_module_init registryEmpty "./svc/?.so".toList).m j → j < 32) :=
  have h := count_bound (skynet_module_init registryEmpty "./svc/?.so".toList)
    ⟨registryEmpty, "./svc/?.so".toList, Later.refl _⟩
  have hq := query_success_eq loaderAll (skynet_module_init registryEmpty "./svc/?.so".toList)
    "echo".toList [Event.dlopen "./svc/echo.so".toList] 7
    (by decide) (by decide) (by decide) (by decide) (by decide)
  ⟨h.1, _, hq, h.2 loaderAll "echo".toList _ (some 0) _ hq⟩

end Skynet
